import Mathlib

/-!
# koa-better-validator: the validation engine of `src/core.js`

A shallow embedding of the field locator, the validator chain, the schema
executor and the error aggregator, followed by the properties proved of them.

JavaScript values are a small inductive type; objects are association lists
of own enumerable string keys in insertion order, and inherit the members of
`Object.prototype`.  The lodash accesses `_.get` and `_.has` are embedded with
their conversion of a name to a path.  Mutable objects (the request context
with its `_validationErrors` array, a chain) are threaded explicitly: an
operation takes the state before and returns the state after.
-/

set_option autoImplicit false

/-! ## JavaScript values -/

/-- JavaScript values that request data is made of, and the members of
`Object.prototype` that a read of such data can return.  Numbers are the
integers and `NaN`; an object is an ordinary object that inherits from
`Object.prototype`, given by the list of its own enumerable properties;
`native name` is the built-in function of that name, or the object
`Object.prototype` itself for the name `Object.prototype`. -/
inductive JsVal where
  | undefined
  | null
  | bool (b : Bool)
  | num (n : Int)
  | nan
  | str (s : String)
  | arr (items : List JsVal)
  | obj (props : List (String × JsVal))
  | native (name : String)

namespace JsVal

/-- Truthiness (`ToBoolean`): `undefined`, `null`, `false`, `0`, `NaN` and `''`
are falsy, everything else (objects and arrays included) is truthy. -/
def truthy : JsVal → Bool
  | .undefined => false
  | .null => false
  | .bool b => b
  | .num n => n != 0
  | .nan => false
  | .str s => s != ""
  | .arr _ => true
  | .obj _ => true
  | .native _ => true

/-- The test `v == null`. -/
def isNullish : JsVal → Bool
  | .undefined => true
  | .null => true
  | _ => false

/-- Value of the first property with key `k` in a property list. -/
def lookupKey (k : String) : List (String × JsVal) → Option JsVal
  | [] => none
  | (k', v) :: rest => if k = k' then some v else lookupKey k rest

/-- Element of an array at the index whose canonical decimal form is `k`;
`i` is the index of the head of the list. -/
def itemAt (k : String) : Nat → List JsVal → Option JsVal
  | _, [] => none
  | i, x :: rest => if k = toString i then some x else itemAt k (i + 1) rest

/-- The properties of `Object.prototype`: its functions, each under its name,
the constructor `Object`, and the accessor `__proto__`, which on an object that
inherits from `Object.prototype` returns that prototype. -/
def objectPrototype : List (String × JsVal) :=
  [("constructor", .native "Object"),
   ("__defineGetter__", .native "__defineGetter__"),
   ("__defineSetter__", .native "__defineSetter__"),
   ("hasOwnProperty", .native "hasOwnProperty"),
   ("__lookupGetter__", .native "__lookupGetter__"),
   ("__lookupSetter__", .native "__lookupSetter__"),
   ("isPrototypeOf", .native "isPrototypeOf"),
   ("propertyIsEnumerable", .native "propertyIsEnumerable"),
   ("toString", .native "toString"),
   ("valueOf", .native "valueOf"),
   ("__proto__", .native "Object.prototype"),
   ("toLocaleString", .native "toLocaleString")]

/-- The read `o[k]`: an own property of an object or else the property that it
inherits from `Object.prototype`, an element or the `length` of an array;
`undefined` when there is none.  What arrays and primitives inherit, the
properties of strings and the properties of built-ins are not modelled: such a
read gives `undefined`. -/
def getProp (o : JsVal) (k : String) : JsVal :=
  match o with
  | .obj props => (lookupKey k props).getD ((lookupKey k objectPrototype).getD .undefined)
  | .arr items =>
    if k = "length" then .num items.length else (itemAt k 0 items).getD .undefined
  | _ => .undefined

/-- The test `Object.prototype.hasOwnProperty.call(o, k)`. -/
def hasOwn (o : JsVal) (k : String) : Bool :=
  match o with
  | .obj props => (lookupKey k props).isSome
  | .arr items => k = "length" || (itemAt k 0 items).isSome
  | _ => false

/-- The conversion `Number::toString` of an integer: its decimal digits when it
is below `10^21` in absolute value, and from there on the exponent form
`d.ddde+n` (`10^21` is `'1e+21'`).  The digits printed are the decimal digits
of the integer, in the exponent form without its trailing zeroes: these are the
digits that JavaScript prints for an integer below `2^53` in absolute value and
for one that has at most 15 significant digits. -/
def numberToString (n : Int) : String :=
  if n.natAbs < 1000000000000000000000 then toString n
  else
    let digits := (toString n.natAbs).toList
    let mantissa := (digits.reverse.dropWhile fun c => c == '0').reverse
    (if n < 0 then "-" else "") ++ String.mk (mantissa.take 1)
      ++ (if mantissa.length > 1 then "." ++ String.mk (mantissa.drop 1) else "")
      ++ "e+" ++ toString (digits.length - 1)

mutual
/-- String conversion (`ToString`), as done by a template literal.  An object
converts by `Object.prototype.toString`: an own `toString` or `valueOf` of the
object is not consulted. -/
def toStr : JsVal → String
  | .undefined => "undefined"
  | .null => "null"
  | .bool b => if b then "true" else "false"
  | .num n => numberToString n
  | .nan => "NaN"
  | .str s => s
  | .arr items => joinItems items
  | .obj _ => "[object Object]"
  | .native name =>
    if name = "Object.prototype" then "[object Object]"
    else "function " ++ name ++ "() \x7b [native code] \x7d"
/-- The method `Array.prototype.join` with the separator `','`: `null` and
`undefined` elements render as the empty string. -/
def joinItems : List JsVal → String
  | [] => ""
  | x :: rest =>
    (match x with
     | .undefined => ""
     | .null => ""
     | v => toStr v) ++ (if rest.isEmpty then "" else "," ++ joinItems rest)
end

mutual
/-- Deep comparison `_.isEqual`: primitives by `SameValueZero` (so `NaN` equals
`NaN`), arrays element by element, objects by their sets of own keys and the
values at each key, whatever the order of the keys, built-ins by identity. -/
def isEqual : JsVal → JsVal → Bool
  | .undefined, .undefined => true
  | .null, .null => true
  | .bool a, .bool b => a == b
  | .num a, .num b => a == b
  | .nan, .nan => true
  | .str a, .str b => a == b
  | .arr xs, .arr ys => isEqualItems xs ys
  | .obj xs, .obj ys => xs.length == ys.length && isEqualProps xs ys
  | .native a, .native b => a == b
  | _, _ => false
/-- Element-wise comparison of two arrays of the same length. -/
def isEqualItems : List JsVal → List JsVal → Bool
  | [], [] => true
  | x :: xs, y :: ys => isEqual x y && isEqualItems xs ys
  | _, _ => false
/-- Every property of the first list has an equal value at its key in the
second. -/
def isEqualProps : List (String × JsVal) → List (String × JsVal) → Bool
  | [], _ => true
  | (k, v) :: rest, ys =>
    (match lookupKey k ys with
     | some w => isEqual v w
     | none => false) && isEqualProps rest ys
end

end JsVal

open JsVal

/-! ## Field references and lodash access -/

/-- A field reference: a scalar name, or a non-empty array of path segments
(`Array.prototype.reduce` without an initial value, which the param formatter
uses, throws on the empty array). -/
inductive Param where
  | name (s : String)
  | path (first : JsVal) (rest : List JsVal)

/-- The class `\w` of a JavaScript regular expression. -/
def isWordChar (c : Char) : Bool := c.isAlphanum || c == '_'

/-- The test of lodash `reIsPlainProp`, `/^\w*$/`. -/
def isPlainProp (s : String) : Bool := s.toList.all isWordChar

/-- The test of lodash `reIsDeepProp`, `/\.|\[(?:[^[\]]*|(["'])(?:(?!\1)[^\\]|\\.)*?\1)\]/`:
the string has a `.`, or a `[` with a `]` somewhere after it.  (Between the
first `]` that has a `[` before it and the last `[` before that `]` there is no
bracket, so the first alternative in the brackets matches there; the second
alternative also needs a `[` with a `]` after it.) -/
def isDeepProp (s : String) : Bool :=
  s.toList.contains '.' || (s.toList.dropWhile fun c => c != '[').contains ']'

/-- The test `key in Object(object)` of lodash `isKey`: an own property, or for
an object a property of `Object.prototype`.  What arrays and primitives
inherit is left out: `isKey` comes to this test only for a name that has a `.`
or brackets, and no property of the standard library has such a name. -/
def hasProperty (object : JsVal) (key : String) : Bool :=
  hasOwn object key
    || (match object with
        | .obj _ => (lookupKey key objectPrototype).isSome
        | _ => false)

/-- The lodash function `isKey(value, object)` on a string: the string is a
property name and not a property path. -/
def isKey (value : String) (object : JsVal) : Bool :=
  isPlainProp value || !isDeepProp value
    || (!object.isNullish && hasProperty object value)

/-- A character of the first alternative of lodash `rePropName`, `[^.[\]]+`. -/
def isNameChar (c : Char) : Bool := c != '.' && c != '[' && c != ']'

/-- A line terminator, which `.` of a regular expression does not match. -/
def isLineTerminator (c : Char) : Bool :=
  c == '\n' || c == '\r' || c == Char.ofNat 8232 || c == Char.ofNat 8233

/-- The number alternative of `rePropName` after its `[`:
`(-?\d+(?:\.\d+)?)\]`.  The result is the number as written and how many
characters the match takes after the `[`. -/
def bracketNumber (cs : List Char) : Option (String × Nat) :=
  let sign := (cs.takeWhile fun c => c == '-').take 1
  let cs₁ := cs.drop sign.length
  let whole := cs₁.takeWhile Char.isDigit
  if whole.isEmpty then none
  else
    match cs₁.drop whole.length with
    | ']' :: _ => some (String.mk (sign ++ whole), sign.length + whole.length + 1)
    | '.' :: cs₂ =>
      let frac := cs₂.takeWhile Char.isDigit
      match frac, cs₂.drop frac.length with
      | _ :: _, ']' :: _ =>
        some (String.mk (sign ++ whole ++ '.' :: frac),
          sign.length + whole.length + 1 + frac.length + 1)
      | _, _ => none
    | _ => none

/-- The body of the quoted alternative of `rePropName` after the opening
quote: `((?:(?!\2)[^\\]|\\.)*?)\2\]`.  The result is the body with its
escapes removed (lodash `reEscapeChar`: a backslash gives way to the character
after it) and how many characters the match takes after the opening quote. -/
def quotedBody (quote : Char) : List Char → Option (List Char × Nat)
  | [] => none
  | c :: rest =>
    if c = quote then
      match rest with
      | ']' :: _ => some ([], 2)
      | _ => none
    else if c = Char.ofNat 92 then
      match rest with
      | d :: rest₁ =>
        if isLineTerminator d then none
        else (quotedBody quote rest₁).map fun r => (d :: r.1, r.2 + 2)
      | [] => none
    else (quotedBody quote rest).map fun r => (c :: r.1, r.2 + 1)

/-- The quoted alternative of `rePropName` after its `[`, for either quote
character. -/
def bracketQuoted : List Char → Option (String × Nat)
  | [] => none
  | q :: rest =>
    if q = Char.ofNat 34 || q = Char.ofNat 39 then
      (quotedBody q rest).map fun r => (String.mk r.1, r.2 + 1)
    else none

/-- The last alternative of `rePropName`, the lookahead
`(?=(?:\.|\[\])(?:\.|\[\]|$))`, which matches the empty string. -/
def emptyName (cs : List Char) : Bool :=
  let after : Option (List Char) :=
    match cs with
    | '.' :: rest => some rest
    | '[' :: ']' :: rest => some rest
    | _ => none
  match after with
  | some [] => true
  | some ('.' :: _) => true
  | some ('[' :: ']' :: _) => true
  | _ => false

/-- The successive matches of `rePropName` in a string, as the keys that the
callback of lodash `stringToPath` pushes.  The first argument counts the
characters that are still inside the previous match; a character where no
alternative matches is passed over, and so is one after an empty match. -/
def propNames : Nat → List Char → List String
  | _, [] => []
  | skip + 1, _ :: rest => propNames skip rest
  | 0, c :: rest =>
    if isNameChar c then
      String.mk (c :: rest.takeWhile isNameChar)
        :: propNames (rest.takeWhile isNameChar).length rest
    else
      match (if c = '[' then (bracketNumber rest).orElse fun _ => bracketQuoted rest
             else none) with
      | some (key, n) => key :: propNames n rest
      | none => if emptyName (c :: rest) then "" :: propNames 0 rest else propNames 0 rest

/-- The lodash function `stringToPath`: a leading `.` gives an empty first key,
then come the matches of `rePropName`. -/
def stringToPath (s : String) : List String :=
  (if s.toList.head? = some '.' then [""] else []) ++ propNames 0 s.toList

/-- The lodash function `castPath(value, object)` followed by `toKey` on each
segment: an array is the path of its segments, a string is one key when
`isKey` says so and is split by `stringToPath` otherwise. -/
def castPath (value : Param) (object : JsVal) : List String :=
  match value with
  | .name s => if isKey s object then [s] else stringToPath s
  | .path first rest => (first :: rest).map toStr

/-- The loop of lodash `baseGet`: follow the keys while the current value is
neither `null` nor `undefined`. -/
def baseGet : JsVal → List String → JsVal
  | o, [] => o
  | .undefined, _ :: _ => .undefined
  | .null, _ :: _ => .undefined
  | o, k :: ks => baseGet (getProp o k) ks

/-- The lodash call `_.get(object, path)` without a default value; an empty
path gives `undefined`. -/
def Lodash.get (object : JsVal) (path : Param) : JsVal :=
  if (castPath path object).isEmpty then .undefined else baseGet object (castPath path object)

/-- The loop of lodash `hasPath` with `baseHas`: every key of the path is an own
property of the value reached so far.  (The arrays of the model have no holes,
so the test for an index of an array that ends `hasPath` adds nothing.) -/
def hasPath : JsVal → List String → Bool
  | _, [] => false
  | o, [k] => hasOwn o k
  | o, k :: ks => hasOwn o k && hasPath (getProp o k) ks

/-- The lodash call `_.has(object, path)`. -/
def Lodash.has (object : JsVal) (path : Param) : Bool :=
  hasPath object (castPath path object)

/-- The model determines the read `o[k]`: a read from an object, or of an
element or of the `length` of an array. -/
def determinedRead (o : JsVal) (k : String) : Bool :=
  match o with
  | .obj _ => true
  | .arr items => hasOwn (.arr items) k
  | _ => false

/-- The model determines every read of the walk along the keys. -/
def determinedWalk : JsVal → List String → Bool
  | _, [] => true
  | .undefined, _ :: _ => true
  | .null, _ :: _ => true
  | o, k :: ks => determinedRead o k && determinedWalk (getProp o k) ks

/-- The model determines the lodash accesses of a value by a name: every read
on the way is from an object, or is of an element or the `length` of an array.
Reads of what arrays and primitives inherit, of the properties of strings and
of the properties of built-ins are left out. -/
def Lodash.determined (object : JsVal) (name : String) : Bool :=
  determinedWalk object (castPath (.name name) object)

/-! ## Request context and field locator -/

/-- The request context: the four buckets and the per-request error list.
`header` stands for `ctx.header`, `ctx.headers` and `ctx.request.header`, which
are one object; `body` is `ctx.request.body`. -/
structure Ctx where
  params : JsVal
  query : JsVal
  body : JsVal
  header : JsVal
  _validationErrors : List JsVal

/-- Location names used by the engine. -/
inductive Loc where
  | body
  | params
  | query
  | header
  | headers
  | any
  deriving DecidableEq, Repr

/-- The function `locate` (core.js 21-39); `none` is `undefined`. -/
def locate (ctx : Ctx) (name : Param) : Option Loc :=
  if (Lodash.get ctx.params name).truthy then some .params
  else if Lodash.has ctx.query name then some .query
  else if Lodash.has ctx.body name then some .body
  else if Lodash.has ctx.header name then some .header
  else none

/-- The model determines the accesses that the field locator makes for a
name: those in each of the four buckets. -/
def Ctx.determines (ctx : Ctx) (name : String) : Bool :=
  Lodash.determined ctx.params name && Lodash.determined ctx.query name
    && Lodash.determined ctx.body name && Lodash.determined ctx.header name

/-! ## Param formatter and error records -/

/-- The library predicate `validator.isInt` with its default options, which
allow leading zeroes: the string matches `^[-+]?[0-9]+$`. -/
def isInt (s : String) : Bool :=
  let digits (cs : List Char) : Bool := !cs.isEmpty && cs.all Char.isDigit
  match s.toList with
  | '-' :: cs => digits cs
  | '+' :: cs => digits cs
  | cs => digits cs

/-- The callback of the `reduce` in `formatParamOutput` (core.js 43-53). -/
def formatStep (prev curr : JsVal) : JsVal :=
  if isInt (toStr curr) then .str (toStr prev ++ "[" ++ toStr curr ++ "]")
  else if prev.truthy then .str (toStr prev ++ "." ++ toStr curr)
  else .str (toStr prev ++ toStr curr)

/-- The function `formatParamOutput` (core.js 41-57): `reduce` without an
initial value starts from the first segment. -/
def formatParamOutput : Param → JsVal
  | .name s => .str s
  | .path first rest => rest.foldl formatStep first

/-- The function `defaultErrorFormatter` (core.js 59-63). -/
def defaultErrorFormatter (param msg value : JsVal) : JsVal :=
  .obj [("param", param), ("msg", msg), ("value", value)]

/-- The options a chain is built with (core.js 66-69), with their defaults. -/
structure Options where
  errorFormatter : JsVal → JsVal → JsVal → JsVal := defaultErrorFormatter
  skipValidationOnFirstError : Bool := false

/-! ## Validator chain -/

/-- The object stored in `lastError` on a failure (core.js 158-162). -/
structure LastError where
  param : Param
  value : JsVal
  isAsync : Bool

/-- The state of a `ValidatorChain` object.  Its `ctx` field is a reference to
the request context, which is threaded beside the chain; `skipValidating` is
absent (falsy) until it is set. -/
structure ValidatorChain where
  errorFormatter : JsVal → JsVal → JsVal → JsVal
  param : Param
  value : JsVal
  validationErrors : List JsVal
  failMsg : JsVal
  skipValidationOnFirstError : Bool
  lastError : Option LastError
  skipValidating : Bool

/-- The bucket read by the constructor: `ctx.request[location]` for `body`,
`ctx[location]` otherwise (the context has no property `any`). -/
def Ctx.bucket (ctx : Ctx) : Option Loc → JsVal
  | some .body => ctx.body
  | some .params => ctx.params
  | some .query => ctx.query
  | some .header => ctx.header
  | some .headers => ctx.header
  | some .any => .undefined
  | none => .undefined

/-- The constructor of `ValidatorChain` (core.js 66-81); a location of `none`
is `undefined`. -/
def ValidatorChain.new (param : Param) (failMsg : JsVal) (ctx : Ctx)
    (location : Option Loc) (options : Options) : ValidatorChain :=
  let context := ctx.bucket location
  { errorFormatter := options.errorFormatter
    param := param
    value := if location.isSome then Lodash.get context param else .undefined
    validationErrors := []
    failMsg := failMsg
    skipValidationOnFirstError := options.skipValidationOnFirstError
    lastError := none
    skipValidating := false }

/-- The test `v === undefined`. -/
def JsVal.isUndefined : JsVal → Bool
  | .undefined => true
  | _ => false

/-- The body of `optional` (core.js 96-104) once `checkFalsy` is bound. -/
def ValidatorChain.optional (this : ValidatorChain) (checkFalsy : JsVal) : ValidatorChain :=
  if checkFalsy.truthy then
    if !this.value.truthy then { this with skipValidating := true } else this
  else if this.value.isUndefined then { this with skipValidating := true }
  else this

/-- The parameter pattern `{ checkFalsy = false } = {}` of `optional`
(core.js 93-95) applied to the first argument: `none` is the `TypeError` of
destructuring `null`. -/
def checkFalsyOf : JsVal → Option JsVal
  | .undefined => some (.bool false)
  | .null => none
  | o =>
    match getProp o "checkFalsy" with
    | .undefined => some (.bool false)
    | v => some v

/-- The method `formatErrors` (core.js 107-110). -/
def ValidatorChain.formatErrors (this : ValidatorChain) (param : Param) (msg value : JsVal) :
    JsVal :=
  this.errorFormatter (formatParamOutput param) msg value

mutual
/-- The conversion to a string of the value does not meet an own `toString`:
no object that is the value or an element of it, at any depth of arrays, has an
own property `toString`. -/
def converts : JsVal → Bool
  | .arr items => convertsItems items
  | .obj props => (lookupKey "toString" props).isNone
  | _ => true
/-- Every element converts. -/
def convertsItems : List JsVal → Bool
  | [] => true
  | x :: rest => converts x && convertsItems rest
end

/-- The helper `toString` (core.js 6-16); `none` is a `TypeError`.  An array
has the truthy `toString` of `Array.prototype`, which joins its elements.  An
object without an own `toString` has the one of `Object.prototype`.  An own
`toString` that is a value of request data is no function: when truthy, the
call `input.toString()` of core.js 8 throws; when falsy, the template literal
of core.js 15 throws, as neither it nor the inherited `valueOf` gives a
primitive.  (An own `toString` that is a built-in function is not modelled and
gives `none` as well.)  `null`, `undefined` and `NaN` give the empty string,
everything else is converted by the template literal. -/
def toString' : JsVal → Option String
  | .arr items => if convertsItems items then some (joinItems items) else none
  | .obj props => if (lookupKey "toString" props).isNone then some "[object Object]" else none
  | .null => some ""
  | .undefined => some ""
  | .nan => some ""
  | v => some (toStr v)

/-- A predicate function of a container: called with the value, the arguments
of the call and, last, the request context or `undefined` (`none`). -/
abbrev Predicate := JsVal → List JsVal → Option Ctx → Bool

/-- The value `isValid` computed by `dynamicValidator` (core.js 149-150);
`isBuiltin` is the test `container === validator`.  Where the helper `toString`
throws, the `TypeError` is not propagated: the value computed is the one for
the empty string. -/
def isValidOf (isBuiltin : Bool) (fn : Predicate) (rest : List JsVal)
    (this : ValidatorChain) (ctx : Ctx) : Bool :=
  fn (if isBuiltin then .str ((toString' this.value).getD "") else this.value) rest
    (if isBuiltin then none else some ctx)

/-- The record `error` computed by `dynamicValidator` (core.js 151). -/
def errorOf (this : ValidatorChain) : JsVal :=
  this.formatErrors this.param
    (if this.failMsg.truthy then this.failMsg else .str "Invalid value") this.value

/-- The method made by `makeValidator(methodName, container)` (core.js
144-172), given the function `fn = container[methodName]`. -/
def dynamicValidator (isBuiltin : Bool) (fn : Predicate) (rest : List JsVal)
    (s : ValidatorChain × Ctx) : ValidatorChain × Ctx :=
  let this := s.1
  let ctx := s.2
  if this.skipValidating then (this, ctx)
  else
    let isValid := isValidOf isBuiltin fn rest this ctx
    let error := errorOf this
    if !isValid then
      ({ this with
          validationErrors := this.validationErrors ++ [error]
          lastError := some { param := this.param, value := this.value, isAsync := false }
          skipValidating := if this.skipValidationOnFirstError then true else this.skipValidating },
       { ctx with _validationErrors := ctx._validationErrors ++ [error] })
    else ({ this with lastError := none }, ctx)

/-! ## Predicate registry -/

/-- The first function registered under a name. -/
def lookupFn (k : String) : List (String × Predicate) → Option Predicate
  | [] => none
  | (k', f) :: rest => if k = k' then some f else lookupFn k rest

/-- The `validator` library: `isLength`, which it always has, and its other
functions by name. -/
structure Validator where
  isLength : Predicate
  others : List (String × Predicate)

/-- The function `validator[methodName]`. -/
def Validator.fn (v : Validator) (methodName : String) : Option Predicate :=
  if methodName = "isLength" then some v.isLength else lookupFn methodName v.others

/-- The allow-list `additionalValidators` (core.js 19). -/
def additionalValidators : List String := ["contains", "equals", "matches"]

/-- The selection test of core.js 176: the name matches `/^is/` or is on the
allow-list. -/
def isSelected (methodName : String) : Bool :=
  (match methodName.toList with
   | 'i' :: 's' :: _ => true
   | _ => false) || additionalValidators.contains methodName

/-- What the method table is built from: the library and the `customValidators`
option. -/
structure Registry where
  validator : Validator
  customValidators : List (String × Predicate)

/-- A method of the chain found under a name. -/
inductive Method where
  | predicate (isBuiltin : Bool) (fn : Predicate)
  | notEmpty
  | len
  | optional

/-- The fields that the constructor sets on a chain (core.js 71-78): own
properties, which come before the methods of the prototype in a lookup. -/
def chainFields : List String :=
  ["errorFormatter", "param", "value", "validationErrors", "failMsg", "ctx",
   "skipValidationOnFirstError", "lastError"]

/-- The custom validators leave alone the two members of the prototype that
every method made by `makeValidator` reads from the chain: none is named
`skipValidating` (the test of core.js 145 would find that method, and every
chain would count as skipped) or `formatErrors` (the method would call itself
at core.js 151). -/
def Registry.keepsChain (reg : Registry) : Bool :=
  (lookupFn "skipValidating" reg.customValidators).isNone
    && (lookupFn "formatErrors" reg.customValidators).isNone

/-- The method found by the lookup `chain[methodName]`: a custom predicate
(core.js 193-195) shadows a selected built-in (core.js 175-179), which shadows
the methods of the class body.  The result is `none` where the call
`chain[methodName](...)` throws a `TypeError` (a field of the chain that is no
function, a name that the chain does not have) and where the model leaves the
call out: the field `errorFormatter`, the method `formatErrors`, the functions
that `Object.prototype` provides, and every name when the custom validators
do not leave the chain alone. -/
def Registry.resolve (reg : Registry) (methodName : String) : Option Method :=
  if !reg.keepsChain || chainFields.contains methodName then none
  else
    match lookupFn methodName reg.customValidators with
    | some fn => some (.predicate false fn)
    | none =>
      match (if isSelected methodName then reg.validator.fn methodName else none) with
      | some fn => some (.predicate true fn)
      | none =>
        if methodName = "notEmpty" then some .notEmpty
        else if methodName = "len" then some .len
        else if methodName = "optional" then some .optional
        else none

/-- The call `this.isLength(...rest)` made by `notEmpty` and `len`. -/
def callIsLength (reg : Registry) (rest : List JsVal) (s : ValidatorChain × Ctx) :
    ValidatorChain × Ctx :=
  match lookupFn "isLength" reg.customValidators with
  | some fn => dynamicValidator false fn rest s
  | none => dynamicValidator true reg.validator.isLength rest s

/-- The call `chain[methodName](...args)`; `none` is a `TypeError` (no such
method, or `optional(null)`) or a call that the model leaves out (see
`Registry.resolve`). -/
def ValidatorChain.invoke (reg : Registry) (methodName : String) (args : List JsVal)
    (s : ValidatorChain × Ctx) : Option (ValidatorChain × Ctx) :=
  match reg.resolve methodName with
  | some (.predicate isBuiltin fn) => some (dynamicValidator isBuiltin fn args s)
  | some .notEmpty => some (callIsLength reg [.obj [("min", .num 1)]] s)
  | some .len => some (callIsLength reg args s)
  | some .optional =>
    match checkFalsyOf (args.headD .undefined) with
    | some checkFalsy => some (s.1.optional checkFalsy, s.2)
    | none => none
  | none => none

/-- A sequence of method calls on one chain, in call order. -/
def runCalls (reg : Registry) (calls : List (String × List JsVal))
    (s : ValidatorChain × Ctx) : Option (ValidatorChain × Ctx) :=
  calls.foldlM (fun st call => ValidatorChain.invoke reg call.1 call.2 st) s

/-! ## Schema executor -/

/-- The constraint set of a field: its entries as `Object.entries` lists them. -/
abbrev ConstraintSet := List (String × JsVal)

/-- A schema: its fields as `Object.entries` lists them. -/
abbrev Schema := List (String × ConstraintSet)

/-- The test `locations.indexOf(v) !== -1` of core.js 118 with the location it
names, for `locations = ['body', 'params', 'query', 'header']`. -/
def knownLocation : JsVal → Option Loc
  | .str s =>
    if s = "body" then some .body
    else if s = "params" then some .params
    else if s = "query" then some .query
    else if s = "header" then some .header
    else none
  | _ => none

/-- The property read `o.k`; `none` is the `TypeError` of reading a property of
`null` or `undefined`. -/
def member (o : JsVal) (k : String) : Option JsVal :=
  match o with
  | .undefined => none
  | .null => none
  | _ => some (getProp o k)

/-- The operator `a || b`. -/
def orElse (a b : JsVal) : JsVal :=
  if a.truthy then a else b

/-- The argument list `...(options || [])` of core.js 139; `none` is the
`TypeError` of spreading a truthy value that is not iterable. -/
def spreadArgs (options : JsVal) : Option (List JsVal) :=
  if !options.truthy then some []
  else
    match options with
    | .arr items => some items
    | .str s => some (s.toList.map fun c => .str (String.singleton c))
    | _ => none

/-- The state of one run of `validateSchema`: the variable `currentLoc`, the
request context, and (for the statements only) the chains built so far, each
as it is after its last constraint. -/
structure SchemaRun where
  currentLoc : Option Loc
  ctx : Ctx
  chains : List ValidatorChain

/-- The callback of the inner `forEach` (core.js 128-140) on one entry of the
constraint set; the state is the chain, the context and `currentLoc`. -/
def constraintStep (reg : Registry) (loc : Loc) (paramErrorMessage : JsVal)
    (st : ValidatorChain × Ctx × Option Loc) (entry : String × JsVal) :
    Option (ValidatorChain × Ctx × Option Loc) :=
  if entry.1 = "errorMessage" then some st
  else if entry.1 = "in" then some (st.1, st.2.1, some loc)
  else
    match member entry.2 "errorMessage", member entry.2 "options" with
    | some errorMessage, some options =>
      match spreadArgs options with
      | some args =>
        let chain :=
          { st.1 with
            failMsg := orElse (orElse errorMessage paramErrorMessage) (.str "Invalid param") }
        (ValidatorChain.invoke reg entry.1 args (chain, st.2.1)).map
          fun r => (r.1, r.2, st.2.2)
      | none => none
    | _, _ => none

/-- The callback of the outer `forEach` (core.js 116-141) on one field. -/
def fieldStep (reg : Registry) (loc : Loc) (options : Options) (st : SchemaRun)
    (field : String × ConstraintSet) : Option SchemaRun :=
  let fieldName := field.1
  let constrains := field.2
  let afterIn : Option (Option Loc) :=
    match lookupKey "in" constrains with
    | some v =>
      match knownLocation v with
      | some l => some (some l)
      | none => none
    | none => some st.currentLoc
  match afterIn with
  | none => some st
  | some currentLoc =>
    let currentLoc :=
      if currentLoc = some Loc.any then locate st.ctx (.name fieldName) else currentLoc
    let validatorChain := ValidatorChain.new (.name fieldName) .null st.ctx currentLoc options
    let paramErrorMessage := (lookupKey "errorMessage" constrains).getD .undefined
    (constrains.foldlM (constraintStep reg loc paramErrorMessage)
        (validatorChain, st.ctx, currentLoc)).map
      fun r => { currentLoc := r.2.2, ctx := r.2.1, chains := st.chains ++ [r.1] }

/-- The run of `validateSchema(schema, ctx, loc, options)` (core.js 113-142)
with the chains it builds; `none` is a `TypeError` thrown on the way. -/
def validateSchemaRun (reg : Registry) (schema : Schema) (ctx : Ctx) (loc : Loc)
    (options : Options) : Option SchemaRun :=
  schema.foldlM (fieldStep reg loc options) { currentLoc := some loc, ctx := ctx, chains := [] }

/-- The function `validateSchema` (core.js 113-142): its effect on the request
context. -/
def validateSchema (reg : Registry) (schema : Schema) (ctx : Ctx) (loc : Loc)
    (options : Options) : Option Ctx :=
  (validateSchemaRun reg schema ctx loc options).map SchemaRun.ctx

/-! ## Error aggregator -/

/-- The assignment `o[k] = v` on the property list of an object. -/
def setProp (k : String) (v : JsVal) : List (String × JsVal) → List (String × JsVal)
  | [] => [(k, v)]
  | (k', w) :: rest => if k = k' then (k', v) :: rest else (k', w) :: setProp k v rest

/-- The body of the loop of `_.uniqWith`: a value is pushed unless the
comparator matches it with a value of the result so far. -/
def uniqStep {α : Type} (comparator : α → α → Bool) (result : List α) (value : α) : List α :=
  if result.any (fun seen => comparator value seen) then result else result ++ [value]

/-- The lodash function `_.uniqWith(array, comparator)`. -/
def Lodash.uniqWith {α : Type} (comparator : α → α → Bool) (array : List α) : List α :=
  array.foldl (uniqStep comparator) []

/-- The own enumerable properties that an object spread copies from a value. -/
def ownEntries : JsVal → List (String × JsVal)
  | .obj props => props
  | .arr items => items.enum.map fun p => (toString p.1, p.2)
  | .str s => s.toList.enum.map fun p => (toString p.1, .str (String.singleton p.2))
  | _ => []

/-- One spread `...source` into the object being built. -/
def spreadInto (target : List (String × JsVal)) (source : JsVal) : List (String × JsVal) :=
  (ownEntries source).foldl (fun t p => setProp p.1 p.2 t) target

/-- The denylist `headerOwnParams` (core.js 220-230). -/
def headerOwnParams : List String :=
  ["host", "connection", "origin", "user-agent", "accept-language", "accept",
   "content-type", "content-length", "accept-encoding"]

/-- The function `_delAttrInObj` (core.js 241-245): a shallow clone without the
given properties. -/
def _delAttrInObj (obj : JsVal) (attrs : List String) : JsVal :=
  match obj with
  | .obj props => .obj (props.filter fun p => !attrs.contains p.1)
  | v => v

/-- The function `_getParams` (core.js 219-238). -/
def _getParams (ctx : Ctx) : List (String × JsVal) :=
  let headers := _delAttrInObj ctx.header headerOwnParams
  spreadInto (spreadInto (spreadInto (spreadInto [] ctx.query) ctx.params) ctx.body) headers

/-- How a call of `ctx.valid` ends. -/
inductive ValidOutcome where
  | errorMap (errors : List (String × JsVal))
  | throwsValidation (errMsg : List JsVal)
  | params (merged : List (String × JsVal))
  | throwsTypeError

/-- The assignment `o[k] = v` on an object that inherits from
`Object.prototype`, as the own properties it leaves.  The key `__proto__`, when
the object has no own property of that name, is the accessor of
`Object.prototype`: its setter changes the prototype of the object (or does
nothing, for a primitive `v`) and creates no own property. -/
def assignProp (k : String) (v : JsVal) (props : List (String × JsVal)) :
    List (String × JsVal) :=
  if k = "__proto__" && (lookupKey k props).isNone then props else setProp k v props

/-- The object `errors` built by core.js 202-206, as its own properties; `none`
is the `TypeError` of reading `param` of a `null` or `undefined` entry. -/
def mappedErrors (errs : List JsVal) : Option (List (String × JsVal)) :=
  errs.foldlM
    (fun errors err => (member err "param").map fun p => assignProp (toStr p) err errors) []

/-- The function `ctx.valid` (core.js 200-217). -/
def valid (ctx : Ctx) (mapped : JsVal) : ValidOutcome :=
  if mapped.truthy && ctx._validationErrors.length > 0 then
    match mappedErrors ctx._validationErrors with
    | some errors => .errorMap errors
    | none => .throwsTypeError
  else if ctx._validationErrors.length > 0 then
    .throwsValidation (Lodash.uniqWith isEqual ctx._validationErrors)
  else .params (_getParams ctx)

/-! ## The middleware: one request -/

/-- An operation of the handler on the entry points that the middleware
installs (core.js 247-263) and on the chains they return: `check` and
`checkSchema` with a location are `ctx.checkBody` and its siblings, without one
they are `ctx.check`; `call` is a method call on the chain built `chain`-th. -/
inductive SessionOp where
  | check (location : Option Loc) (param : Param) (failMsg : JsVal)
  | checkSchema (location : Option Loc) (schema : Schema)
  | call (chain : Nat) (methodName : String) (args : List JsVal)

/-- The validation state of one request: the context and every chain built so
far, in order of construction. -/
structure Session where
  ctx : Ctx
  chains : List ValidatorChain

/-- The start of a request: the middleware empties the error list (core.js
199). -/
def Session.start (ctx : Ctx) : Session :=
  { ctx := { ctx with _validationErrors := [] }, chains := [] }

/-- One operation of the handler; `none` is a `TypeError` or a call on a chain
that was never built. -/
def Session.step (reg : Registry) (options : Options) (s : Session) :
    SessionOp → Option Session
  | .check location param failMsg =>
    some
      { s with
        chains := s.chains
          ++ [ValidatorChain.new param failMsg s.ctx (location.or (locate s.ctx param)) options] }
  | .checkSchema location schema =>
    (validateSchemaRun reg schema s.ctx (location.getD .any) options).map
      fun r => { ctx := r.ctx, chains := s.chains ++ r.chains }
  | .call i methodName args =>
    match s.chains[i]? with
    | none => none
    | some chain =>
      (ValidatorChain.invoke reg methodName args (chain, s.ctx)).map
        fun r => { ctx := r.2, chains := s.chains.set i r.1 }

/-- A sequence of operations of the handler within one request. -/
def Session.run (reg : Registry) (options : Options) (ops : List SessionOp) (s : Session) :
    Option Session :=
  ops.foldlM (Session.step reg options) s

/-! ## Helpers of the statements -/

/-- The name is a predicate method of the chain: a registered built-in or
custom predicate, `notEmpty` or `len`. -/
def Registry.isPredicateMethod (reg : Registry) (methodName : String) : Bool :=
  match reg.resolve methodName with
  | some (.predicate _ _) => true
  | some .notEmpty => true
  | some .len => true
  | _ => false

/-- The value `isValid` that `this.isLength(...rest)` computes on an active
chain. -/
def isLengthValid (reg : Registry) (rest : List JsVal) (this : ValidatorChain) (ctx : Ctx) :
    Bool :=
  match lookupFn "isLength" reg.customValidators with
  | some fn => isValidOf false fn rest this ctx
  | none => isValidOf true reg.validator.isLength rest this ctx

/-- The value `isValid` that the call of a predicate method computes on an
active chain (`true` for a name that is no predicate method). -/
def Registry.isValidCall (reg : Registry) (call : String × List JsVal) (this : ValidatorChain)
    (ctx : Ctx) : Bool :=
  match reg.resolve call.1 with
  | some (.predicate isBuiltin fn) => isValidOf isBuiltin fn call.2 this ctx
  | some .notEmpty => isLengthValid reg [.obj [("min", .num 1)]] this ctx
  | some .len => isLengthValid reg call.2 this ctx
  | _ => true

/-- The property key `err.param` used by core.js 205. -/
def paramKey (err : JsVal) : String :=
  toStr (getProp err "param")

/-- An entry of the error list from which core.js 205 takes a key: it is
neither `null` nor `undefined`, whose `param` cannot be read, and its `param`
converts to a string without meeting an own `toString`. -/
def isRecord (err : JsVal) : Bool :=
  !err.isNullish && converts (getProp err "param")

mutual
/-- Every object inside the value has pairwise distinct keys, as every
JavaScript object has. -/
def JsVal.wellFormed : JsVal → Bool
  | .arr items => wellFormedItems items
  | .obj props => decide ((props.map Prod.fst).Nodup) && wellFormedProps props
  | _ => true
/-- Every element is well formed. -/
def wellFormedItems : List JsVal → Bool
  | [] => true
  | x :: rest => JsVal.wellFormed x && wellFormedItems rest
/-- Every property value is well formed. -/
def wellFormedProps : List (String × JsVal) → Bool
  | [] => true
  | (_, v) :: rest => JsVal.wellFormed v && wellFormedProps rest
end

/-- Deduplication as the specification words it: an element is kept when it is
not equal to any element that comes earlier in the list. -/
def firstOccurrences {α : Type} (eq : α → α → Bool) : List α → List α → List α
  | _, [] => []
  | earlier, x :: rest =>
    if earlier.any (fun y => eq x y) then firstOccurrences eq (earlier ++ [x]) rest
    else x :: firstOccurrences eq (earlier ++ [x]) rest

/-- The state of the chain and of the context after `dynamicValidator` on an
active chain, as a function of the value `isValid`. -/
def afterCall (isValid : Bool) (this : ValidatorChain) (ctx : Ctx) : ValidatorChain × Ctx :=
  if isValid then ({ this with lastError := none }, ctx)
  else
    ({ this with
        validationErrors := this.validationErrors ++ [errorOf this]
        lastError := some { param := this.param, value := this.value, isAsync := false }
        skipValidating := this.skipValidationOnFirstError },
     { ctx with _validationErrors := ctx._validationErrors ++ [errorOf this] })

/-- The value of the last entry with key `k`: what an object spread of the
entries leaves at `k`. -/
def lastValue (k : String) (entries : List (String × JsVal)) : Option JsVal :=
  (entries.reverse.find? fun p => p.1 == k).map Prod.snd

/-- The param formatter as the specification words it: a fold over the
segments, in order, from the empty string, where an integer-like segment `s`
turns the accumulator `acc` into `acc[s]` and any other segment is joined to
it with `.`. -/
def formatParamSpec (segments : List JsVal) : JsVal :=
  segments.foldl formatStep (.str "")

/-- The invariant of the error lists: the list of every chain is a sublist of
the shared list, whose length is the sum of their lengths. -/
def errorsConsistent (errs : List JsVal) (chains : List ValidatorChain) : Prop :=
  (∀ c ∈ chains, c.validationErrors.Sublist errs)
    ∧ errs.length = (chains.map fun c => c.validationErrors.length).sum

/-! ## A concrete library and request, for examples -/

/-- The library predicate `validator.isLength(str, options)` for an options
object with integer `min` and `max`: the length is at least `min` (default 0)
and at most `max` when there is one. -/
def validatorIsLength : Predicate := fun v rest _ =>
  match v with
  | .str s =>
    let options := rest.headD .undefined
    let min : Int :=
      match getProp options "min" with
      | .num n => n
      | _ => 0
    match getProp options "max" with
    | .num m => decide (min ≤ (s.length : Int)) && decide ((s.length : Int) ≤ m)
    | _ => decide (min ≤ (s.length : Int))
  | _ => false

/-- The library predicate `validator.isInt(str)` called without options. -/
def validatorIsInt : Predicate := fun v _ _ =>
  match v with
  | .str s => isInt s
  | _ => false

/-- A registry with the built-ins `isLength` and `isInt` and no custom
predicate. -/
def sampleRegistry : Registry :=
  { validator := { isLength := validatorIsLength, others := [("isInt", validatorIsInt)] }
    customValidators := [] }

/-- A request with `id` in the body only and `age` in the query only. -/
def sampleCtx : Ctx :=
  { params := .obj []
    query := .obj [("age", .str "17")]
    body := .obj [("id", .str "5")]
    header := .obj [("x-token", .str "t")]
    _validationErrors := [] }

/-- The chain of `ctx.checkQuery('age')` on the sample request. -/
def sampleChain : ValidatorChain :=
  ValidatorChain.new (.name "age") .undefined sampleCtx (some .query) {}

/-- A request whose sources overlap: `id` is in query, params and body, `page`
in query and params, `lang` in body and headers, and `host` in headers. -/
def overlapCtx : Ctx :=
  { params := .obj [("id", .str "p"), ("page", .str "2")]
    query := .obj [("id", .str "q"), ("page", .str "1"), ("sort", .str "asc")]
    body := .obj [("id", .str "b"), ("lang", .str "en")]
    header := .obj [("host", .str "example.org"), ("lang", .str "fr"), ("x-token", .str "t")]
    _validationErrors := [] }

/-- A custom predicate that accepts a value exactly when it is the number 17
and it is given the request context. -/
def rawSeventeen : Predicate := fun v _ ctx =>
  match v, ctx with
  | .num 17, some _ => true
  | _, _ => false

/-- A request whose body is `{n: 17}`. -/
def numberCtx : Ctx :=
  { sampleCtx with body := .obj [("n", .num 17)] }

/-- The chain of `ctx.checkBody('n')` on the request whose body is `{n: 17}`. -/
def numberChain : ValidatorChain :=
  ValidatorChain.new (.name "n") .undefined numberCtx (some .body) {}

/-- A request whose query holds `age` as `'x'`, which is no integer. -/
def badAgeCtx : Ctx :=
  { sampleCtx with query := .obj [("age", .str "x")] }

/-- The chain that the schema executor builds for `age` on that request. -/
def badAgeChain : ValidatorChain :=
  ValidatorChain.new (.name "age") .null badAgeCtx (some .query) {}

/-- The handler of the witness of C19: `ctx.check('age')` with two failing
calls around a schema that records the missing `zip`. -/
def sampleOps : List SessionOp :=
  [.check none (.name "age") .undefined,
   .call 0 "len" [.obj [("min", .num 9)]],
   .checkSchema none [("zip", [("notEmpty", .obj [])])],
   .call 0 "optional" [],
   .call 0 "len" [.obj [("min", .num 5)]]]

/-! ## Theorems -/

/-! ### Lemmas on chains -/

theorem dynamicValidator_skipped (isBuiltin : Bool) (fn : Predicate) (rest : List JsVal)
    (s : ValidatorChain × Ctx) (h : s.1.skipValidating = true) :
    dynamicValidator isBuiltin fn rest s = s := by
  simp [dynamicValidator, h]

theorem callIsLength_skipped (reg : Registry) (rest : List JsVal)
    (s : ValidatorChain × Ctx) (h : s.1.skipValidating = true) :
    callIsLength reg rest s = s := by
  unfold callIsLength
  split <;> exact dynamicValidator_skipped _ _ _ s h

theorem invoke_skipped (reg : Registry) (methodName : String) (args : List JsVal)
    (s : ValidatorChain × Ctx) (hm : reg.isPredicateMethod methodName = true)
    (h : s.1.skipValidating = true) :
    ValidatorChain.invoke reg methodName args s = some s := by
  unfold Registry.isPredicateMethod at hm
  unfold ValidatorChain.invoke
  split at hm
  · rename_i b fn hr
    simp [hr, dynamicValidator_skipped _ _ _ s h]
  · rename_i hr
    simp [hr, callIsLength_skipped _ _ s h]
  · rename_i hr
    simp [hr, callIsLength_skipped _ _ s h]
  · simp at hm

theorem runCalls_skipped (reg : Registry) (calls : List (String × List JsVal))
    (chain : ValidatorChain) (ctx : Ctx) (hskip : chain.skipValidating = true)
    (hcalls : ∀ call ∈ calls, reg.isPredicateMethod call.1 = true) :
    runCalls reg calls (chain, ctx) = some (chain, ctx) := by
  induction calls with
  | nil => rfl
  | cons call rest ih =>
    have h1 := invoke_skipped reg call.1 call.2 (chain, ctx)
      (hcalls call (List.mem_cons_self _ _)) hskip
    simp only [runCalls, List.foldlM_cons, h1]
    exact ih (fun c hc => hcalls c (List.mem_cons_of_mem _ hc))

/-- A predicate method is a call of `dynamicValidator` on some function. -/
theorem invoke_predicate (reg : Registry) (call : String × List JsVal)
    (hm : reg.isPredicateMethod call.1 = true) :
    ∃ (isBuiltin : Bool) (fn : Predicate) (rest : List JsVal),
      (∀ s, ValidatorChain.invoke reg call.1 call.2 s = some (dynamicValidator isBuiltin fn rest s))
        ∧ (∀ c ctx, reg.isValidCall call c ctx = isValidOf isBuiltin fn rest c ctx) := by
  unfold Registry.isPredicateMethod at hm
  split at hm
  · rename_i b fn hr
    exact ⟨b, fn, call.2, fun s => by simp [ValidatorChain.invoke, hr],
      fun c ctx => by simp [Registry.isValidCall, hr]⟩
  · rename_i hr
    cases hl : lookupFn "isLength" reg.customValidators with
    | some fn =>
      exact ⟨false, fn, [.obj [("min", .num 1)]],
        fun s => by simp [ValidatorChain.invoke, hr, callIsLength, hl],
        fun c ctx => by simp [Registry.isValidCall, hr, isLengthValid, hl]⟩
    | none =>
      exact ⟨true, reg.validator.isLength, [.obj [("min", .num 1)]],
        fun s => by simp [ValidatorChain.invoke, hr, callIsLength, hl],
        fun c ctx => by simp [Registry.isValidCall, hr, isLengthValid, hl]⟩
  · rename_i hr
    cases hl : lookupFn "isLength" reg.customValidators with
    | some fn =>
      exact ⟨false, fn, call.2, fun s => by simp [ValidatorChain.invoke, hr, callIsLength, hl],
        fun c ctx => by simp [Registry.isValidCall, hr, isLengthValid, hl]⟩
    | none =>
      exact ⟨true, reg.validator.isLength, call.2,
        fun s => by simp [ValidatorChain.invoke, hr, callIsLength, hl],
        fun c ctx => by simp [Registry.isValidCall, hr, isLengthValid, hl]⟩
  · simp at hm

theorem runCalls_cons (reg : Registry) (call : String × List JsVal)
    (calls : List (String × List JsVal)) (s : ValidatorChain × Ctx) :
    runCalls reg (call :: calls) s
      = (ValidatorChain.invoke reg call.1 call.2 s).bind (runCalls reg calls) := by
  simp [runCalls, List.foldlM_cons]

/-- Calls on an active chain that stops on its first error: either all pass and
nothing is recorded, or the run ends in the state right after the first failing
call, which records one error. -/
theorem runCalls_stop_on_first (reg : Registry) (calls : List (String × List JsVal))
    (hcalls : ∀ call ∈ calls, reg.isPredicateMethod call.1 = true)
    (c : ValidatorChain) (ctx : Ctx) (hactive : c.skipValidating = false)
    (hstop : c.skipValidationOnFirstError = true) :
    ((∀ call ∈ calls, reg.isValidCall call c ctx = true)
        ∧ ∃ c', runCalls reg calls (c, ctx) = some (c', ctx)
            ∧ c'.validationErrors = c.validationErrors)
      ∨ ∃ pre call post c' ctx', calls = pre ++ call :: post
          ∧ (∀ p ∈ pre, reg.isValidCall p c ctx = true)
          ∧ reg.isValidCall call c ctx = false
          ∧ runCalls reg calls (c, ctx) = some (c', ctx')
          ∧ runCalls reg (pre ++ [call]) (c, ctx) = some (c', ctx')
          ∧ c'.validationErrors = c.validationErrors ++ [errorOf c]
          ∧ ctx'._validationErrors = ctx._validationErrors ++ [errorOf c] := by
  induction calls generalizing c with
  | nil => exact Or.inl ⟨fun _ h => absurd h (List.not_mem_nil _), c, rfl, rfl⟩
  | cons call rest ih =>
    obtain ⟨b, fn, args, hinv, hval⟩ :=
      invoke_predicate reg call (hcalls call (List.mem_cons_self _ _))
    have hrest : ∀ p ∈ rest, reg.isPredicateMethod p.1 = true :=
      fun p hp => hcalls p (List.mem_cons_of_mem _ hp)
    cases hv : isValidOf b fn args c ctx with
    | true =>
      have hstep : ValidatorChain.invoke reg call.1 call.2 (c, ctx)
          = some ({ c with lastError := none }, ctx) := by
        rw [hinv]; simp [dynamicValidator, hactive, hv]
      have hsame : ∀ p, reg.isValidCall p { c with lastError := none } ctx
          = reg.isValidCall p c ctx := fun p => rfl
      rcases ih hrest { c with lastError := none } hactive hstop with
        ⟨hall, c', hrun, herr⟩ | ⟨pre, cl, post, c', ctx', hsplit, hpre, hfail, hrun, hrun', herr, hctx⟩
      · refine Or.inl ⟨?_, c', ?_, herr⟩
        · intro p hp
          rcases List.mem_cons.1 hp with h | h
          · rw [h, hval, hv]
          · exact hall p h
        · rw [runCalls_cons, hstep]; exact hrun
      · refine Or.inr ⟨call :: pre, cl, post, c', ctx', by simp [hsplit], ?_, hfail, ?_, ?_, herr, hctx⟩
        · intro p hp
          rcases List.mem_cons.1 hp with h | h
          · rw [h, hval, hv]
          · exact hpre p h
        · rw [runCalls_cons, hstep]; exact hrun
        · rw [List.cons_append, runCalls_cons, hstep]; exact hrun'
    | false =>
      have hstep : ValidatorChain.invoke reg call.1 call.2 (c, ctx)
          = some (dynamicValidator b fn args (c, ctx)) := hinv _
      have hskip : (dynamicValidator b fn args (c, ctx)).1.skipValidating = true := by
        simp [dynamicValidator, hactive, hv, hstop]
      refine Or.inr ⟨[], call, rest, (dynamicValidator b fn args (c, ctx)).1,
        (dynamicValidator b fn args (c, ctx)).2, rfl, fun _ h => absurd h (List.not_mem_nil _),
        by rw [hval, hv], ?_, ?_, ?_, ?_⟩
      · rw [runCalls_cons, hstep]
        exact runCalls_skipped reg rest _ _ hskip hrest
      · rw [List.nil_append, runCalls_cons, hstep]; rfl
      · simp [dynamicValidator, hactive, hv]
      · simp [dynamicValidator, hactive, hv]

theorem first_failure_unique {α : Type} (P : α → Prop) (pre pre' : List α) (x x' : α)
    (post post' : List α) (h : pre ++ x :: post = pre' ++ x' :: post')
    (hpre : ∀ p ∈ pre, P p) (hx : ¬ P x) (hpre' : ∀ p ∈ pre', P p) (hx' : ¬ P x') :
    pre = pre' ∧ x = x' := by
  induction pre generalizing pre' with
  | nil =>
    cases pre' with
    | nil => simp at h; exact ⟨rfl, h.1⟩
    | cons y ys =>
      simp at h
      exact absurd (h.1 ▸ hpre' y (List.mem_cons_self _ _)) hx
  | cons z zs ih =>
    cases pre' with
    | nil =>
      simp at h
      exact absurd (h.1 ▸ hpre z (List.mem_cons_self _ _)) hx'
    | cons y ys =>
      simp at h
      obtain ⟨h1, h2⟩ := h
      have := ih ys h2 (fun p hp => hpre p (List.mem_cons_of_mem _ hp))
        (fun p hp => hpre' p (List.mem_cons_of_mem _ hp))
      exact ⟨by rw [h1, this.1], this.2⟩

/-! ### Lemmas on the schema executor -/

theorem fieldStep_skip (reg : Registry) (loc : Loc) (options : Options) (st : SchemaRun)
    (fieldName : String) (constrains : ConstraintSet) (v : JsVal)
    (hin : lookupKey "in" constrains = some v) (hbad : knownLocation v = none) :
    fieldStep reg loc options st (fieldName, constrains) = some st := by
  simp [fieldStep, hin, hbad]

/-! ### Lemmas on property lists -/

theorem lookupKey_setProp (k k' : String) (v : JsVal) (m : List (String × JsVal)) :
    lookupKey k (setProp k' v m) = if k = k' then some v else lookupKey k m := by
  induction m with
  | nil => simp [setProp, lookupKey]
  | cons p rest ih =>
    obtain ⟨k0, w⟩ := p
    by_cases h0 : k' = k0
    · subst h0
      by_cases h1 : k = k' <;> simp [setProp, lookupKey, h1]
    · by_cases h1 : k = k0
      · subst h1
        have : ¬ k = k' := fun h => h0 h.symm
        simp [setProp, lookupKey, h0, this]
      · simp [setProp, lookupKey, h0, h1, ih]

theorem keys_setProp (k : String) (v : JsVal) (m : List (String × JsVal)) :
    (setProp k v m).map Prod.fst = if k ∈ m.map Prod.fst then m.map Prod.fst
      else m.map Prod.fst ++ [k] := by
  induction m with
  | nil => simp [setProp]
  | cons p rest ih =>
    obtain ⟨k0, w⟩ := p
    by_cases h0 : k = k0
    · subst h0
      simp [setProp]
    · by_cases hk : k ∈ List.map Prod.fst rest
      · rw [if_pos hk] at ih
        have hk' : k ∈ List.map Prod.fst ((k0, w) :: rest) := by
          rw [List.map_cons]; exact List.mem_cons_of_mem _ hk
        rw [if_pos hk']
        simp only [setProp, if_neg h0, List.map_cons, ih]
      · rw [if_neg hk] at ih
        have hk' : ¬ k ∈ List.map Prod.fst ((k0, w) :: rest) := by
          rw [List.map_cons, List.mem_cons]; exact fun h => h.elim h0 hk
        rw [if_neg hk']
        simp only [setProp, if_neg h0, List.map_cons, ih, List.cons_append]

theorem nodup_keys_setProp (k : String) (v : JsVal) (m : List (String × JsVal))
    (h : (m.map Prod.fst).Nodup) : ((setProp k v m).map Prod.fst).Nodup := by
  rw [keys_setProp]
  split
  · exact h
  · rename_i hk
    exact List.Nodup.append h (List.nodup_singleton k) (by simpa using hk)

theorem member_of_not_nullish (e : JsVal) (k : String) (h : e.isNullish = false) :
    member e k = some (getProp e k) := by
  cases e <;> simp [JsVal.isNullish] at h <;> rfl

/-! ### Deep equality is an equivalence on well-formed values -/

theorem wellFormedItems_iff (xs : List JsVal) :
    wellFormedItems xs = true ↔ ∀ x ∈ xs, x.wellFormed = true := by
  induction xs with
  | nil => simp [wellFormedItems]
  | cons x rest ih => simp [wellFormedItems, ih]

theorem wellFormedProps_iff (ps : List (String × JsVal)) :
    wellFormedProps ps = true ↔ ∀ p ∈ ps, p.2.wellFormed = true := by
  induction ps with
  | nil => simp [wellFormedProps]
  | cons p rest ih =>
    obtain ⟨k, v⟩ := p
    simp [wellFormedProps, ih]

theorem isEqualItems_iff (xs ys : List JsVal) :
    isEqualItems xs ys = true ↔ List.Forall₂ (fun x y => isEqual x y = true) xs ys := by
  induction xs generalizing ys with
  | nil => cases ys <;> simp [isEqualItems]
  | cons x rest ih =>
    cases ys with
    | nil => simp [isEqualItems]
    | cons y ys => simp [isEqualItems, ih]

theorem isEqualProps_iff (xs ys : List (String × JsVal)) :
    isEqualProps xs ys = true
      ↔ ∀ p ∈ xs, ∃ w, lookupKey p.1 ys = some w ∧ isEqual p.2 w = true := by
  induction xs with
  | nil => simp [isEqualProps]
  | cons p rest ih =>
    obtain ⟨k, v⟩ := p
    simp only [isEqualProps, Bool.and_eq_true, ih, List.mem_cons, forall_eq_or_imp]
    constructor
    · rintro ⟨h1, h2⟩
      refine ⟨?_, h2⟩
      cases hl : lookupKey k ys with
      | none => simp [hl] at h1
      | some w => exact ⟨w, rfl, by simpa [hl] using h1⟩
    · rintro ⟨⟨w, hw, he⟩, h2⟩
      exact ⟨by simp [hw, he], h2⟩

theorem lookupKey_mem (k : String) (v : JsVal) (ps : List (String × JsVal))
    (h : lookupKey k ps = some v) : (k, v) ∈ ps := by
  induction ps with
  | nil => simp [lookupKey] at h
  | cons p rest ih =>
    obtain ⟨k0, w⟩ := p
    by_cases hk : k = k0
    · subst hk
      simp [lookupKey] at h
      simp [h]
    · simp [lookupKey, hk] at h
      exact List.mem_cons_of_mem _ (ih h)

theorem lookupKey_of_mem_nodup (k : String) (v : JsVal) (ps : List (String × JsVal))
    (hn : (ps.map Prod.fst).Nodup) (h : (k, v) ∈ ps) : lookupKey k ps = some v := by
  induction ps with
  | nil => simp at h
  | cons p rest ih =>
    obtain ⟨k0, w⟩ := p
    rw [List.map_cons, List.nodup_cons] at hn
    rcases List.mem_cons.1 h with h1 | h1
    · cases h1
      simp [lookupKey]
    · have hk : k ≠ k0 := fun hk => hn.1 (List.mem_map.2 ⟨(k, v), h1, hk⟩)
      simp [lookupKey, hk]
      exact ih hn.2 h1

theorem sizeOf_lt_of_mem_items (x : JsVal) (xs : List JsVal) (h : x ∈ xs) :
    sizeOf x < sizeOf (JsVal.arr xs) := by
  have := List.sizeOf_lt_of_mem h
  simp only [JsVal.arr.sizeOf_spec]
  omega

theorem sizeOf_lt_of_mem_props (p : String × JsVal) (ps : List (String × JsVal)) (h : p ∈ ps) :
    sizeOf p.2 < sizeOf (JsVal.obj ps) := by
  have := List.sizeOf_lt_of_mem h
  obtain ⟨k, v⟩ := p
  simp only [JsVal.obj.sizeOf_spec]
  simp only [Prod.mk.sizeOf_spec] at this
  omega

theorem forall₂_trans_of_mem (xs ys zs : List JsVal)
    (ih : ∀ x ∈ xs, ∀ y z, isEqual x y = true → isEqual y z = true → isEqual x z = true)
    (h1 : List.Forall₂ (fun x y => isEqual x y = true) xs ys)
    (h2 : List.Forall₂ (fun x y => isEqual x y = true) ys zs) :
    List.Forall₂ (fun x y => isEqual x y = true) xs zs := by
  induction h1 generalizing zs with
  | nil => cases h2; exact List.Forall₂.nil
  | cons hxy _ ih' =>
    cases h2 with
    | cons hyz h2' =>
      exact List.Forall₂.cons (ih _ (List.mem_cons_self _ _) _ _ hxy hyz)
        (ih' _ (fun x hx => ih x (List.mem_cons_of_mem _ hx)) h2')

theorem isEqual_trans (a b c : JsVal) (h1 : isEqual a b = true) (h2 : isEqual b c = true) :
    isEqual a c = true := by
  cases a <;> cases b <;> simp only [isEqual, reduceCtorEq] at h1 <;>
    cases c <;> simp only [isEqual, reduceCtorEq] at h2 ⊢
  case bool.bool.bool => simp_all
  case num.num.num => simp_all
  case str.str.str => simp_all
  case native.native.native => simp_all
  case arr.arr.arr xs ys zs =>
    rw [isEqualItems_iff] at h1 h2 ⊢
    exact forall₂_trans_of_mem xs ys zs
      (fun x hx y z e1 e2 =>
        have := sizeOf_lt_of_mem_items x xs hx
        isEqual_trans x y z e1 e2) h1 h2
  case obj.obj.obj xs ys zs =>
    simp only [Bool.and_eq_true, beq_iff_eq, isEqualProps_iff] at h1 h2 ⊢
    refine ⟨h1.1.trans h2.1, fun p hp => ?_⟩
    obtain ⟨w, hw, e1⟩ := h1.2 p hp
    obtain ⟨u, hu, e2⟩ := h2.2 (p.1, w) (lookupKey_mem _ _ _ hw)
    exact ⟨u, hu,
      have := sizeOf_lt_of_mem_props p xs hp
      isEqual_trans p.2 w u e1 e2⟩
termination_by sizeOf a

theorem forall₂_refl_of_mem (xs : List JsVal) (ih : ∀ x ∈ xs, isEqual x x = true) :
    List.Forall₂ (fun x y => isEqual x y = true) xs xs := by
  induction xs with
  | nil => exact List.Forall₂.nil
  | cons x rest ih' =>
    exact List.Forall₂.cons (ih x (List.mem_cons_self _ _))
      (ih' fun y hy => ih y (List.mem_cons_of_mem _ hy))

theorem isEqual_refl (a : JsVal) (hwf : a.wellFormed = true) : isEqual a a = true := by
  cases a <;> simp only [isEqual, beq_self_eq_true]
  case arr xs =>
    simp only [JsVal.wellFormed, wellFormedItems_iff] at hwf
    rw [isEqualItems_iff]
    exact forall₂_refl_of_mem xs fun x hx =>
      have := sizeOf_lt_of_mem_items x xs hx
      isEqual_refl x (hwf x hx)
  case obj xs =>
    simp only [JsVal.wellFormed, Bool.and_eq_true, decide_eq_true_eq, wellFormedProps_iff] at hwf
    simp only [Bool.true_and, isEqualProps_iff]
    intro p hp
    exact ⟨p.2, lookupKey_of_mem_nodup p.1 p.2 xs hwf.1 hp,
      have := sizeOf_lt_of_mem_props p xs hp
      isEqual_refl p.2 (hwf.2 p hp)⟩
termination_by sizeOf a

theorem forall₂_symm_of_mem (xs ys : List JsVal)
    (ih : ∀ x ∈ xs, ∀ y, isEqual x y = true → isEqual y x = true)
    (h : List.Forall₂ (fun x y => isEqual x y = true) xs ys) :
    List.Forall₂ (fun x y => isEqual x y = true) ys xs := by
  induction h with
  | nil => exact List.Forall₂.nil
  | cons hxy _ ih' =>
    exact List.Forall₂.cons (ih _ (List.mem_cons_self _ _) _ hxy)
      (ih' fun x hx => ih x (List.mem_cons_of_mem _ hx))

theorem lookupKey_isSome_of_mem_keys (k : String) (ps : List (String × JsVal))
    (h : k ∈ ps.map Prod.fst) : ∃ v, lookupKey k ps = some v := by
  induction ps with
  | nil => simp at h
  | cons p rest ih =>
    obtain ⟨k0, w⟩ := p
    by_cases hk : k = k0
    · exact ⟨w, by simp [lookupKey, hk]⟩
    · simp only [List.map_cons, List.mem_cons, hk, false_or] at h
      obtain ⟨v, hv⟩ := ih h
      exact ⟨v, by simp [lookupKey, hk, hv]⟩

/-- Two property lists of the same length, the first with distinct keys all
found in the second, have the same keys, and the second has distinct keys. -/
theorem keys_perm_of_subset (xs ys : List (String × JsVal))
    (hn : (xs.map Prod.fst).Nodup) (hlen : xs.length = ys.length)
    (hsub : ∀ p ∈ xs, p.1 ∈ ys.map Prod.fst) :
    (xs.map Prod.fst).Perm (ys.map Prod.fst) := by
  have hs : xs.map Prod.fst ⊆ ys.map Prod.fst := by
    intro k hk
    obtain ⟨p, hp, rfl⟩ := List.mem_map.1 hk
    exact hsub p hp
  exact (List.subperm_of_subset hn hs).perm_of_length_le (by simp [hlen])

theorem isEqual_symm (a b : JsVal) (hwf : a.wellFormed = true) (h : isEqual a b = true) :
    isEqual b a = true := by
  cases a <;> cases b <;> simp only [isEqual, reduceCtorEq] at h ⊢
  case bool.bool => simp_all
  case num.num => simp_all
  case str.str => simp_all
  case native.native => simp_all
  case arr.arr xs ys =>
    simp only [JsVal.wellFormed, wellFormedItems_iff] at hwf
    rw [isEqualItems_iff] at h ⊢
    exact forall₂_symm_of_mem xs ys
      (fun x hx y e =>
        have := sizeOf_lt_of_mem_items x xs hx
        isEqual_symm x y (hwf x hx) e) h
  case obj.obj xs ys =>
    simp only [JsVal.wellFormed, Bool.and_eq_true, decide_eq_true_eq, wellFormedProps_iff] at hwf
    simp only [Bool.and_eq_true, beq_iff_eq, isEqualProps_iff] at h ⊢
    have hperm := keys_perm_of_subset xs ys hwf.1 h.1 fun p hp => by
      obtain ⟨w, hw, _⟩ := h.2 p hp
      exact List.mem_map.2 ⟨(p.1, w), lookupKey_mem _ _ _ hw, rfl⟩
    have hny : (ys.map Prod.fst).Nodup := hperm.nodup_iff.1 hwf.1
    refine ⟨h.1.symm, fun q hq => ?_⟩
    have hqk : q.1 ∈ xs.map Prod.fst := hperm.mem_iff.2 (List.mem_map_of_mem Prod.fst hq)
    obtain ⟨v, hv⟩ := lookupKey_isSome_of_mem_keys q.1 xs hqk
    have hvm := lookupKey_mem _ _ _ hv
    obtain ⟨w, hw, e⟩ := h.2 (q.1, v) hvm
    have hwq : w = q.2 := by
      have := lookupKey_of_mem_nodup q.1 q.2 ys hny hq
      rw [this] at hw
      exact (Option.some.inj hw).symm
    subst hwq
    exact ⟨v, hv,
      have := sizeOf_lt_of_mem_props (q.1, v) xs hvm
      isEqual_symm v q.2 (hwf.2 (q.1, v) hvm) e⟩
termination_by sizeOf a

/-! ### Lemmas on the error map -/

theorem assignProp_proto (v : JsVal) (m : List (String × JsVal))
    (h : "__proto__" ∉ m.map Prod.fst) : assignProp "__proto__" v m = m := by
  have hl : lookupKey "__proto__" m = none := by
    cases hk : lookupKey "__proto__" m with
    | none => rfl
    | some w => exact absurd (List.mem_map.2 ⟨("__proto__", w), lookupKey_mem _ _ _ hk, rfl⟩) h
  simp [assignProp, hl]

theorem assignProp_other (k : String) (v : JsVal) (m : List (String × JsVal))
    (h : k ≠ "__proto__") : assignProp k v m = setProp k v m := by
  simp [assignProp, h]

theorem mappedErrors_fold (errs : List JsVal) (hrec : ∀ e ∈ errs, e.isNullish = false)
    (acc : List (String × JsVal)) (hacc : (acc.map Prod.fst).Nodup)
    (hproto : "__proto__" ∉ acc.map Prod.fst) :
    ∃ errors,
      errs.foldlM
          (fun errors err => (member err "param").map fun p => assignProp (toStr p) err errors)
          acc
        = some errors
      ∧ (∀ k, k ≠ "__proto__" → lookupKey k errors
          = ((errs.reverse.find? fun e => paramKey e == k).or (lookupKey k acc)))
      ∧ (errors.map Prod.fst).Nodup
      ∧ "__proto__" ∉ errors.map Prod.fst := by
  induction errs generalizing acc with
  | nil => exact ⟨acc, rfl, fun k _ => by simp, hacc, hproto⟩
  | cons e rest ih =>
    have he := member_of_not_nullish e "param" (hrec e (List.mem_cons_self _ _))
    have hrest : ∀ x ∈ rest, x.isNullish = false := fun x hx => hrec x (List.mem_cons_of_mem _ hx)
    by_cases hp : paramKey e = "__proto__"
    · obtain ⟨errors, h1, h2, h3, h4⟩ := ih hrest acc hacc hproto
      refine ⟨errors, ?_, ?_, h3, h4⟩
      · simp only [List.foldlM_cons, he, Option.map_some', Option.bind_eq_bind, Option.some_bind]
        have hstep : assignProp (toStr (getProp e "param")) e acc = acc := by
          have hp' : toStr (getProp e "param") = "__proto__" := hp
          rw [hp']
          exact assignProp_proto e acc hproto
        rw [hstep]
        exact h1
      · intro k hk
        rw [h2 k hk, List.reverse_cons, List.find?_append]
        cases hf : List.find? (fun e => paramKey e == k) rest.reverse with
        | some x => simp
        | none =>
          have : ¬ paramKey e = k := fun h => hk (h ▸ hp)
          simp [this]
    · have hkeys : "__proto__" ∉ (setProp (paramKey e) e acc).map Prod.fst := by
        rw [keys_setProp]
        split
        · exact hproto
        · intro hm
          rcases List.mem_append.1 hm with hm | hm
          · exact hproto hm
          · exact hp (List.mem_singleton.1 hm).symm
      obtain ⟨errors, h1, h2, h3, h4⟩ := ih hrest (setProp (paramKey e) e acc)
        (nodup_keys_setProp _ _ _ hacc) hkeys
      refine ⟨errors, ?_, ?_, h3, h4⟩
      · simp only [List.foldlM_cons, he, Option.map_some', Option.bind_eq_bind, Option.some_bind]
        have hstep : assignProp (toStr (getProp e "param")) e acc = setProp (paramKey e) e acc :=
          assignProp_other _ e acc hp
        rw [hstep]
        exact h1
      · intro k hk
        rw [h2 k hk, lookupKey_setProp, List.reverse_cons, List.find?_append]
        cases hf : List.find? (fun e => paramKey e == k) rest.reverse with
        | some x => simp
        | none =>
          by_cases hk' : k = paramKey e
          · subst hk'; simp
          · have : ¬ paramKey e = k := fun h => hk' h.symm
            simp [hk', this]

/-! ### Lemmas on `_.uniqWith` -/

theorem uniq_fold_eq_firstOccurrences {α : Type} (cmp : α → α → Bool)
    (htrans : ∀ a b c, cmp a b = true → cmp b c = true → cmp a c = true)
    (l : List α) (result earlier : List α)
    (hinv : ∀ x, (result.any fun y => cmp x y) = (earlier.any fun y => cmp x y)) :
    l.foldl (uniqStep cmp) result = result ++ firstOccurrences cmp earlier l := by
  induction l generalizing result earlier with
  | nil => simp [firstOccurrences]
  | cons x rest ih =>
    simp only [List.foldl_cons, firstOccurrences]
    by_cases hx : (earlier.any fun y => cmp x y) = true
    · have hx' : (result.any fun y => cmp x y) = true := by rw [hinv]; exact hx
      rw [if_pos hx]
      simp only [uniqStep, if_pos hx']
      refine ih result (earlier ++ [x]) fun z => ?_
      rw [List.any_append, ← hinv z]
      cases hz : cmp z x with
      | false => simp [hz]
      | true =>
        obtain ⟨r, hr, hxr⟩ := List.any_eq_true.1 hx'
        have : (result.any fun y => cmp z y) = true :=
          List.any_eq_true.2 ⟨r, hr, htrans z x r hz hxr⟩
        simp [this]
    · have hx' : ¬ (result.any fun y => cmp x y) = true := by rw [hinv]; exact hx
      rw [if_neg hx]
      simp only [uniqStep, if_neg hx']
      rw [ih (result ++ [x]) (earlier ++ [x]) fun z => by
        rw [List.any_append, List.any_append, hinv z]]
      simp

theorem firstOccurrences_sublist {α : Type} (cmp : α → α → Bool) (earlier l : List α) :
    (firstOccurrences cmp earlier l).Sublist l := by
  induction l generalizing earlier with
  | nil => simp [firstOccurrences]
  | cons x rest ih =>
    simp only [firstOccurrences]
    split
    · exact (ih _).cons x
    · exact (ih _).cons₂ x

theorem uniq_fold_mono {α : Type} (cmp : α → α → Bool) (l result : List α) :
    ∀ r ∈ result, r ∈ l.foldl (uniqStep cmp) result := by
  induction l generalizing result with
  | nil => exact fun r hr => hr
  | cons x rest ih =>
    intro r hr
    simp only [List.foldl_cons]
    apply ih
    unfold uniqStep
    split
    · exact hr
    · exact List.mem_append_left _ hr

theorem uniq_fold_spec {α : Type} (cmp : α → α → Bool) (P : α → Prop)
    (hrefl : ∀ a, P a → cmp a a = true)
    (hsymm : ∀ a b, P a → cmp a b = true → cmp b a = true)
    (l : List α) (hl : ∀ x ∈ l, P x) (result : List α) (hres : ∀ x ∈ result, P x)
    (hpair : result.Pairwise fun a b => cmp a b = false ∧ cmp b a = false) :
    (l.foldl (uniqStep cmp) result).Pairwise (fun a b => cmp a b = false ∧ cmp b a = false)
      ∧ (∀ e, e ∈ result ∨ e ∈ l → ∃ r ∈ l.foldl (uniqStep cmp) result, cmp e r = true) := by
  induction l generalizing result with
  | nil =>
    refine ⟨hpair, fun e he => ?_⟩
    rcases he with he | he
    · exact ⟨e, he, hrefl e (hres e he)⟩
    · exact absurd he (List.not_mem_nil _)
  | cons x rest ih =>
    have hPx := hl x (List.mem_cons_self _ _)
    have hrest : ∀ y ∈ rest, P y := fun y hy => hl y (List.mem_cons_of_mem _ hy)
    simp only [List.foldl_cons]
    by_cases hx : (result.any fun y => cmp x y) = true
    · simp only [uniqStep, if_pos hx]
      obtain ⟨h1, h2⟩ := ih hrest result hres hpair
      refine ⟨h1, fun e he => ?_⟩
      rcases he with he | he
      · exact h2 e (Or.inl he)
      · rcases List.mem_cons.1 he with he | he
        · subst he
          obtain ⟨r, hr, hxr⟩ := List.any_eq_true.1 hx
          exact ⟨r, uniq_fold_mono cmp rest result r hr, hxr⟩
        · exact h2 e (Or.inr he)
    · simp only [uniqStep, if_neg hx]
      have hnone : ∀ r ∈ result, cmp x r = false := by
        intro r hr
        cases h : cmp x r with
        | false => rfl
        | true => exact absurd (List.any_eq_true.2 ⟨r, hr, h⟩) hx
      obtain ⟨h1, h2⟩ := ih hrest (result ++ [x])
        (fun y hy => by
          rcases List.mem_append.1 hy with h | h
          · exact hres y h
          · rw [List.mem_singleton.1 h]; exact hPx)
        (by
          rw [List.pairwise_append]
          refine ⟨hpair, List.pairwise_singleton _ _, fun a ha b hb => ?_⟩
          rw [List.mem_singleton.1 hb]
          refine ⟨?_, hnone a ha⟩
          cases h : cmp a x with
          | false => rfl
          | true =>
            have := hsymm a x (hres a ha) h
            rw [hnone a ha] at this
            exact absurd this (by simp))
      refine ⟨h1, fun e he => ?_⟩
      rcases he with he | he
      · exact h2 e (Or.inl (List.mem_append_left _ he))
      · rcases List.mem_cons.1 he with he | he
        · subst he
          exact h2 e (Or.inl (List.mem_append_right _ (List.mem_singleton_self _)))
        · exact h2 e (Or.inr he)

/-! ### Lemmas on the merged parameters, the chain methods and the request -/

theorem lastValue_nil (k : String) : lastValue k [] = none := rfl

theorem lastValue_cons (k : String) (p : String × JsVal) (ps : List (String × JsVal)) :
    lastValue k (p :: ps) = (lastValue k ps).or (if k = p.1 then some p.2 else none) := by
  unfold lastValue
  rw [List.reverse_cons, List.find?_append]
  cases h : List.find? (fun p => p.1 == k) ps.reverse with
  | some x => simp
  | none =>
    by_cases hk : k = p.1
    · subst hk; simp
    · have : ¬ p.1 = k := fun h => hk h.symm
      simp [hk, this]

theorem lastValue_isSome_iff (k : String) (ps : List (String × JsVal)) :
    (lastValue k ps).isSome = true ↔ k ∈ ps.map Prod.fst := by
  induction ps with
  | nil => simp [lastValue_nil]
  | cons p rest ih =>
    rw [lastValue_cons, List.map_cons, List.mem_cons]
    cases h : lastValue k rest with
    | some v =>
      rw [h] at ih
      simp [ih.1 rfl]
    | none =>
      rw [h] at ih
      have hn : ¬ k ∈ rest.map Prod.fst := fun hm => by simpa using ih.2 hm
      by_cases hk : k = p.1 <;> simp [hk, hn]

theorem lookupKey_isSome_iff (k : String) (ps : List (String × JsVal)) :
    (lookupKey k ps).isSome = true ↔ k ∈ ps.map Prod.fst := by
  constructor
  · intro h
    obtain ⟨v, hv⟩ := Option.isSome_iff_exists.1 h
    exact List.mem_map.2 ⟨(k, v), lookupKey_mem _ _ _ hv, rfl⟩
  · intro h
    obtain ⟨v, hv⟩ := lookupKey_isSome_of_mem_keys k ps h
    simp [hv]

theorem lastValue_eq_lookupKey (k : String) (ps : List (String × JsVal))
    (hn : (ps.map Prod.fst).Nodup) : lastValue k ps = lookupKey k ps := by
  induction ps with
  | nil => rfl
  | cons p rest ih =>
    obtain ⟨k0, w⟩ := p
    rw [List.map_cons, List.nodup_cons] at hn
    rw [lastValue_cons, ih hn.2]
    by_cases hk : k = k0
    · subst hk
      have : lookupKey k rest = none := by
        cases h : lookupKey k rest with
        | none => rfl
        | some v => exact absurd ((lookupKey_isSome_iff k rest).1 (by simp [h])) hn.1
      simp [this, lookupKey]
    · cases h : lookupKey k rest <;> simp [lookupKey, hk, h]

theorem spread_fold_lookup (k : String) (entries target : List (String × JsVal)) :
    lookupKey k (entries.foldl (fun t p => setProp p.1 p.2 t) target)
      = (lastValue k entries).or (lookupKey k target) := by
  induction entries generalizing target with
  | nil => simp [lastValue_nil]
  | cons p rest ih =>
    rw [List.foldl_cons, ih, lookupKey_setProp, lastValue_cons]
    cases h : lastValue k rest with
    | some v => simp
    | none => by_cases hk : k = p.1 <;> simp [hk]

theorem spread_fold_nodup (entries target : List (String × JsVal))
    (hn : (target.map Prod.fst).Nodup) :
    ((entries.foldl (fun t p => setProp p.1 p.2 t) target).map Prod.fst).Nodup := by
  induction entries generalizing target with
  | nil => exact hn
  | cons p rest ih => exact ih _ (nodup_keys_setProp _ _ _ hn)

theorem spreadInto_lookup (k : String) (target : List (String × JsVal)) (source : JsVal) :
    lookupKey k (spreadInto target source)
      = (lastValue k (ownEntries source)).or (lookupKey k target) :=
  spread_fold_lookup k _ _

theorem getParams_lookup (ctx : Ctx) (k : String) :
    lookupKey k (_getParams ctx)
      = (lastValue k (ownEntries (_delAttrInObj ctx.header headerOwnParams))).or
          ((lastValue k (ownEntries ctx.body)).or
            ((lastValue k (ownEntries ctx.params)).or (lastValue k (ownEntries ctx.query)))) := by
  simp only [_getParams, spreadInto_lookup, lookupKey, Option.or_none]

theorem getParams_nodup (ctx : Ctx) : ((_getParams ctx).map Prod.fst).Nodup := by
  unfold _getParams spreadInto
  exact spread_fold_nodup _ _ (spread_fold_nodup _ _ (spread_fold_nodup _ _
    (spread_fold_nodup _ _ List.nodup_nil)))

theorem getParams_keys (ctx : Ctx) (k : String) :
    k ∈ (_getParams ctx).map Prod.fst
      ↔ k ∈ (ownEntries ctx.params).map Prod.fst ∨ k ∈ (ownEntries ctx.query).map Prod.fst
        ∨ k ∈ (ownEntries ctx.body).map Prod.fst
        ∨ k ∈ (ownEntries (_delAttrInObj ctx.header headerOwnParams)).map Prod.fst := by
  rw [← lookupKey_isSome_iff, getParams_lookup, ← lastValue_isSome_iff, ← lastValue_isSome_iff,
    ← lastValue_isSome_iff, ← lastValue_isSome_iff]
  cases lastValue k (ownEntries (_delAttrInObj ctx.header headerOwnParams)) <;>
    cases lastValue k (ownEntries ctx.body) <;>
    cases lastValue k (ownEntries ctx.params) <;>
    cases lastValue k (ownEntries ctx.query) <;> simp

theorem lastValue_filter (k : String) (ps : List (String × JsVal)) (q : String → Bool) :
    lastValue k (ps.filter fun p => q p.1) = if q k = true then lastValue k ps else none := by
  induction ps with
  | nil => simp [lastValue_nil]
  | cons p rest ih =>
    by_cases hp : q p.1 = true
    · rw [List.filter_cons_of_pos (by simpa using hp), lastValue_cons, lastValue_cons, ih]
      by_cases hq : q k = true
      · simp [hq]
      · have : ¬ k = p.1 := fun h => hq (h ▸ hp)
        simp [hq, this]
    · rw [List.filter_cons_of_neg (by simpa using hp), ih, lastValue_cons]
      by_cases hq : q k = true
      · have : ¬ k = p.1 := fun h => hp (h ▸ hq)
        simp [hq, this]
      · simp [hq]

theorem formatStep_empty (s : String) (h : isInt s = false) :
    formatStep (.str "") (.str s) = .str s := by
  simp [formatStep, toStr, h, truthy]

theorem dynamicValidator_active (isBuiltin : Bool) (fn : Predicate) (rest : List JsVal)
    (chain : ValidatorChain) (ctx : Ctx) (hactive : chain.skipValidating = false) :
    dynamicValidator isBuiltin fn rest (chain, ctx)
      = afterCall (isValidOf isBuiltin fn rest chain ctx) chain ctx := by
  cases h : isValidOf isBuiltin fn rest chain ctx <;>
    simp [dynamicValidator, afterCall, hactive, h]

theorem optional_skip (c : ValidatorChain) (cf : JsVal) :
    (c.optional cf).skipValidating
      = (c.skipValidating
          || (if cf.truthy = true then !c.value.truthy else c.value.isUndefined)) := by
  unfold ValidatorChain.optional
  cases cf.truthy <;> cases c.value.truthy <;> cases c.value.isUndefined <;>
    cases h : c.skipValidating <;> simp [h]

theorem optional_rest (c : ValidatorChain) (cf : JsVal) :
    (c.optional cf).validationErrors = c.validationErrors
      ∧ (c.optional cf).value = c.value
      ∧ (c.optional cf).skipValidationOnFirstError = c.skipValidationOnFirstError := by
  unfold ValidatorChain.optional
  split
  · split <;> exact ⟨rfl, rfl, rfl⟩
  · split <;> exact ⟨rfl, rfl, rfl⟩

theorem dynamicValidator_skip_flag (isBuiltin : Bool) (fn : Predicate) (rest : List JsVal)
    (c : ValidatorChain) (ctx : Ctx) :
    (dynamicValidator isBuiltin fn rest (c, ctx)).1.skipValidating
      = (c.skipValidating
          || (!isValidOf isBuiltin fn rest c ctx && c.skipValidationOnFirstError)) := by
  cases hs : c.skipValidating
  · rw [dynamicValidator_active isBuiltin fn rest c ctx hs]
    cases h : isValidOf isBuiltin fn rest c ctx <;> simp [afterCall, hs]
  · rw [dynamicValidator_skipped isBuiltin fn rest (c, ctx) hs]
    simp [hs]

theorem invoke_skip_flag (reg : Registry) (methodName : String) (args : List JsVal)
    (c c' : ValidatorChain) (ctx ctx' : Ctx)
    (hcall : ValidatorChain.invoke reg methodName args (c, ctx) = some (c', ctx')) :
    (reg.isPredicateMethod methodName = true
        ∧ c'.skipValidating
          = (c.skipValidating
              || (!reg.isValidCall (methodName, args) c ctx && c.skipValidationOnFirstError)))
      ∨ (reg.isPredicateMethod methodName = false ∧ reg.resolve methodName = some .optional
        ∧ ∃ cf, checkFalsyOf (args.headD .undefined) = some cf
          ∧ c'.skipValidating
            = (c.skipValidating
                || (if cf.truthy = true then !c.value.truthy else c.value.isUndefined))) := by
  by_cases hp : reg.isPredicateMethod methodName = true
  · obtain ⟨b, fn, rest, hinv, hval⟩ := invoke_predicate reg (methodName, args) hp
    have h1 := hinv (c, ctx)
    simp only at h1
    rw [hcall] at h1
    have h2 := congrArg (fun r => r.1.skipValidating) (Option.some.inj h1)
    simp only at h2
    refine Or.inl ⟨hp, ?_⟩
    rw [h2, dynamicValidator_skip_flag, hval]
  · have hp' : reg.isPredicateMethod methodName = false := by simpa using hp
    refine Or.inr ⟨hp', ?_⟩
    unfold Registry.isPredicateMethod at hp'
    unfold ValidatorChain.invoke at hcall
    cases hr : reg.resolve methodName with
    | none => simp [hr] at hcall
    | some m =>
      cases m with
      | predicate b fn => simp [hr] at hp'
      | notEmpty => simp [hr] at hp'
      | len => simp [hr] at hp'
      | optional =>
        refine ⟨rfl, ?_⟩
        simp only [hr] at hcall
        cases hcf : checkFalsyOf (args.headD .undefined) with
        | none => rw [hcf] at hcall; simp at hcall
        | some cf =>
          rw [hcf] at hcall
          simp only [Option.some.injEq, Prod.mk.injEq] at hcall
          exact ⟨cf, rfl, by rw [← hcall.1, optional_skip]⟩

/-- A step of the schema executor on a constraint that is no reserved key is
the call of the method on the chain with its failure message updated. -/
theorem constraintStep_method (reg : Registry) (loc : Loc) (paramErrorMessage : JsVal)
    (c : ValidatorChain) (ctx : Ctx) (l : Option Loc) (entry : String × JsVal)
    (r : ValidatorChain × Ctx × Option Loc)
    (h1 : entry.1 ≠ "errorMessage") (h2 : entry.1 ≠ "in")
    (h : constraintStep reg loc paramErrorMessage (c, ctx, l) entry = some r) :
    ∃ errorMessage options args,
      member entry.2 "errorMessage" = some errorMessage
        ∧ member entry.2 "options" = some options
        ∧ spreadArgs options = some args
        ∧ ValidatorChain.invoke reg entry.1 args
            ({ c with
                failMsg := orElse (orElse errorMessage paramErrorMessage)
                  (.str "Invalid param") }, ctx) = some (r.1, r.2.1)
        ∧ r.2.2 = l := by
  cases hm1 : member entry.2 "errorMessage" with
  | none => simp [constraintStep, h1, h2, hm1] at h
  | some errorMessage =>
    cases hm2 : member entry.2 "options" with
    | none => simp [constraintStep, h1, h2, hm1, hm2] at h
    | some options =>
      cases hsa : spreadArgs options with
      | none => simp [constraintStep, h1, h2, hm1, hm2, hsa] at h
      | some args =>
        simp only [constraintStep, h1, h2, hm1, hm2, hsa, if_false] at h
        cases hi : ValidatorChain.invoke reg entry.1 args
            ({ c with
                failMsg := orElse (orElse errorMessage paramErrorMessage)
                  (.str "Invalid param") }, ctx) with
        | none => rw [hi] at h; simp at h
        | some r' =>
          rw [hi] at h
          simp only [Option.map_some', Option.some.injEq] at h
          subst h
          exact ⟨errorMessage, options, args, rfl, rfl, hsa, hi, rfl⟩

theorem constraintStep_skip (reg : Registry) (loc : Loc) (paramErrorMessage : JsVal)
    (c : ValidatorChain) (ctx : Ctx) (l : Option Loc) (entry : String × JsVal)
    (r : ValidatorChain × Ctx × Option Loc)
    (h : constraintStep reg loc paramErrorMessage (c, ctx, l) entry = some r)
    (hs : c.skipValidating = true) : r.1.skipValidating = true := by
  by_cases h1 : entry.1 = "errorMessage"
  · simp only [constraintStep, h1, if_true, Option.some.injEq] at h
    rw [← h]; exact hs
  · by_cases h2 : entry.1 = "in"
    · have h1' : ¬ "in" = "errorMessage" := by decide
      simp only [constraintStep, h2, h1', if_true, if_false, Option.some.injEq] at h
      rw [← h]; exact hs
    · obtain ⟨em, _, args, _, _, _, hi, _⟩ :=
        constraintStep_method reg loc paramErrorMessage c ctx l entry r h1 h2 h
      rcases invoke_skip_flag reg entry.1 args _ r.1 ctx r.2.1 hi with
        ⟨_, h3⟩ | ⟨_, _, cf, _, h3⟩
      · rw [h3]; simp [hs]
      · rw [h3]; simp [hs]

theorem orElse_message (errorMessage paramErrorMessage : JsVal) :
    orElse (orElse errorMessage paramErrorMessage) (.str "Invalid param")
        = (if errorMessage.truthy = true then errorMessage
           else if paramErrorMessage.truthy = true then paramErrorMessage
           else .str "Invalid param")
      ∧ (orElse (orElse errorMessage paramErrorMessage) (.str "Invalid param")).truthy = true := by
  have hd : (JsVal.str "Invalid param").truthy = true := by decide
  unfold orElse
  cases h1 : errorMessage.truthy
  · cases h2 : paramErrorMessage.truthy
    · simp [h1, h2, hd]
    · simp [h1, h2]
  · simp [h1]

theorem castPath_of_own (k : String) (props : List (String × JsVal))
    (h : (lookupKey k props).isSome = true) : castPath (.name k) (.obj props) = [k] := by
  simp [castPath, isKey, hasProperty, hasOwn, h, JsVal.isNullish]

theorem castPath_of_not_deep (k : String) (o : JsVal) (h : isDeepProp k = false) :
    castPath (.name k) o = [k] := by
  simp [castPath, isKey, h]

theorem has_of_own (k : String) (props : List (String × JsVal))
    (h : (lookupKey k props).isSome = true) : Lodash.has (.obj props) (.name k) = true := by
  simp [Lodash.has, castPath_of_own k props h, hasPath, hasOwn, h]

theorem get_of_own (k : String) (props : List (String × JsVal)) (v : JsVal)
    (h : lookupKey k props = some v) : Lodash.get (.obj props) (.name k) = v := by
  have h' : (lookupKey k props).isSome = true := by simp [h]
  simp [Lodash.get, castPath_of_own k props h', baseGet, getProp, h]

theorem hasPath_empty (ks : List String) : hasPath (.obj []) ks = false := by
  match ks with
  | [] => rfl
  | [_] => rfl
  | _ :: _ :: _ => rfl

theorem has_empty (name : Param) : Lodash.has (.obj []) name = false :=
  hasPath_empty _

theorem chainFields_not_selected (m : String) (h : isSelected m = true) :
    chainFields.contains m = false := by
  cases hc : chainFields.contains m with
  | false => rfl
  | true =>
    have hm : m ∈ chainFields := by simpa using hc
    simp only [chainFields, List.mem_cons, List.mem_singleton, List.not_mem_nil, or_false] at hm
    rcases hm with h' | h' | h' | h' | h' | h' | h' | h' <;> subst h' <;>
      exact absurd h (by decide)

theorem knownLocation_ne_any (v : JsVal) : knownLocation v ≠ some Loc.any := by
  cases v <;> simp only [knownLocation, ne_eq, reduceCtorEq, not_false_eq_true]
  split_ifs <;> simp

theorem errorsConsistent_push (errs added : List JsVal) (chains : List ValidatorChain)
    (c : ValidatorChain) (h : errorsConsistent errs chains) (hc : c.validationErrors = added) :
    errorsConsistent (errs ++ added) (chains ++ [c]) := by
  refine ⟨fun x hx => ?_, ?_⟩
  · rcases List.mem_append.1 hx with hx | hx
    · exact (h.1 x hx).trans (List.sublist_append_left _ _)
    · rw [List.mem_singleton.1 hx, hc]
      exact List.sublist_append_right _ _
  · simp [h.2, hc]

theorem sum_map_set {α : Type} (f : α → Nat) (l : List α) (i : Nat) (x y : α)
    (h : l[i]? = some x) : ((l.set i y).map f).sum + f x = (l.map f).sum + f y := by
  induction l generalizing i with
  | nil => simp at h
  | cons a rest ih =>
    cases i with
    | zero =>
      simp only [List.getElem?_cons_zero, Option.some.injEq] at h
      subst h
      simp only [List.set_cons_zero, List.map_cons, List.sum_cons]
      omega
    | succ n =>
      simp only [List.getElem?_cons_succ] at h
      have := ih n h
      simp only [List.set_cons_succ, List.map_cons, List.sum_cons]
      omega

theorem errorsConsistent_set (errs added : List JsVal) (chains : List ValidatorChain) (i : Nat)
    (c c' : ValidatorChain) (h : errorsConsistent errs chains) (hi : chains[i]? = some c)
    (hc : c'.validationErrors = c.validationErrors ++ added) :
    errorsConsistent (errs ++ added) (chains.set i c') := by
  have hmem : c ∈ chains := List.getElem?_mem hi
  refine ⟨fun x hx => ?_, ?_⟩
  · rcases List.mem_or_eq_of_mem_set hx with hx | hx
    · exact (h.1 x hx).trans (List.sublist_append_left _ _)
    · rw [hx, hc]
      exact (h.1 c hmem).append (List.Sublist.refl _)
  · have := sum_map_set (fun c => c.validationErrors.length) chains i c c' hi
    simp only [hc, List.length_append] at this
    rw [List.length_append, h.2]
    omega

/-- A method call appends the same records to the list of the chain and to the
shared list. -/
theorem invoke_appends (reg : Registry) (methodName : String) (args : List JsVal)
    (c c' : ValidatorChain) (ctx ctx' : Ctx)
    (h : ValidatorChain.invoke reg methodName args (c, ctx) = some (c', ctx')) :
    ∃ added, c'.validationErrors = c.validationErrors ++ added
      ∧ ctx'._validationErrors = ctx._validationErrors ++ added := by
  by_cases hp : reg.isPredicateMethod methodName = true
  · obtain ⟨b, fn, rest, hinv, _⟩ := invoke_predicate reg (methodName, args) hp
    have h1 := hinv (c, ctx)
    simp only at h1
    rw [h] at h1
    have h2 := Option.some.inj h1
    cases hs : c.skipValidating with
    | true =>
      rw [dynamicValidator_skipped b fn rest (c, ctx) hs] at h2
      cases h2
      exact ⟨[], by simp, by simp⟩
    | false =>
      rw [dynamicValidator_active b fn rest c ctx hs] at h2
      cases hv : isValidOf b fn rest c ctx with
      | true =>
        rw [hv] at h2
        simp only [afterCall, if_true, Prod.mk.injEq] at h2
        exact ⟨[], by rw [h2.1]; simp, by rw [h2.2]; simp⟩
      | false =>
        rw [hv] at h2
        simp only [afterCall, Bool.false_eq_true, if_false, Prod.mk.injEq] at h2
        exact ⟨[errorOf c], by rw [h2.1], by rw [h2.2]⟩
  · rcases invoke_skip_flag reg methodName args c c' ctx ctx' h with ⟨hp', _⟩ | ⟨_, hr, _⟩
    · exact absurd hp' hp
    · unfold ValidatorChain.invoke at h
      simp only [hr] at h
      cases hcf : checkFalsyOf (args.headD .undefined) with
      | none => rw [hcf] at h; simp at h
      | some cf =>
        rw [hcf] at h
        simp only [Option.some.injEq, Prod.mk.injEq] at h
        exact ⟨[], by rw [← h.1, (optional_rest c cf).1]; simp, by rw [← h.2]; simp⟩

theorem constraintStep_appends (reg : Registry) (loc : Loc) (paramErrorMessage : JsVal)
    (c : ValidatorChain) (ctx : Ctx) (l : Option Loc) (entry : String × JsVal)
    (r : ValidatorChain × Ctx × Option Loc)
    (h : constraintStep reg loc paramErrorMessage (c, ctx, l) entry = some r) :
    ∃ added, r.1.validationErrors = c.validationErrors ++ added
      ∧ r.2.1._validationErrors = ctx._validationErrors ++ added := by
  by_cases h1 : entry.1 = "errorMessage"
  · simp only [constraintStep, h1, if_true, Option.some.injEq] at h
    rw [← h]; exact ⟨[], by simp, by simp⟩
  · by_cases h2 : entry.1 = "in"
    · have h1' : ¬ "in" = "errorMessage" := by decide
      simp only [constraintStep, h2, h1', if_true, if_false, Option.some.injEq] at h
      rw [← h]; exact ⟨[], by simp, by simp⟩
    · obtain ⟨em, _, args, _, _, _, hi, _⟩ :=
        constraintStep_method reg loc paramErrorMessage c ctx l entry r h1 h2 h
      have happ := invoke_appends _ _ _ _ _ _ _ hi
      exact happ

theorem constraints_append (reg : Registry) (loc : Loc) (paramErrorMessage : JsVal)
    (constrains : ConstraintSet) (c : ValidatorChain) (ctx : Ctx) (l : Option Loc)
    (r : ValidatorChain × Ctx × Option Loc)
    (h : constrains.foldlM (constraintStep reg loc paramErrorMessage) (c, ctx, l) = some r) :
    ∃ added, r.1.validationErrors = c.validationErrors ++ added
      ∧ r.2.1._validationErrors = ctx._validationErrors ++ added := by
  induction constrains generalizing c ctx l with
  | nil =>
    simp only [List.foldlM_nil, Option.pure_def, Option.some.injEq] at h
    rw [← h]; exact ⟨[], by simp, by simp⟩
  | cons entry rest ih =>
    simp only [List.foldlM_cons, Option.bind_eq_bind] at h
    cases hs : constraintStep reg loc paramErrorMessage (c, ctx, l) entry with
    | none => rw [hs] at h; simp at h
    | some r₁ =>
      rw [hs] at h
      simp only [Option.some_bind] at h
      obtain ⟨a₁, h1, h2⟩ := constraintStep_appends reg loc paramErrorMessage c ctx l entry r₁ hs
      obtain ⟨a₂, h3, h4⟩ := ih r₁.1 r₁.2.1 r₁.2.2 h
      exact ⟨a₁ ++ a₂, by rw [h3, h1, List.append_assoc], by rw [h4, h2, List.append_assoc]⟩

theorem fieldStep_consistent (reg : Registry) (loc : Loc) (options : Options)
    (st st' : SchemaRun) (field : String × ConstraintSet) (outer : List ValidatorChain)
    (h : fieldStep reg loc options st field = some st')
    (hinv : errorsConsistent st.ctx._validationErrors (outer ++ st.chains)) :
    errorsConsistent st'.ctx._validationErrors (outer ++ st'.chains) := by
  unfold fieldStep at h
  simp only at h
  split at h
  · cases h; exact hinv
  · rename_i currentLoc _
    cases hf : List.foldlM
        (constraintStep reg loc ((lookupKey "errorMessage" field.2).getD .undefined))
        (ValidatorChain.new (.name field.1) .null st.ctx
          (if currentLoc = some Loc.any then locate st.ctx (.name field.1) else currentLoc)
          options, st.ctx,
          if currentLoc = some Loc.any then locate st.ctx (.name field.1) else currentLoc)
        field.2 with
    | none => rw [hf] at h; simp at h
    | some r =>
      rw [hf] at h
      simp only [Option.map_some', Option.some.injEq] at h
      obtain ⟨added, h1, h2⟩ := constraints_append reg loc _ field.2 _ _ _ r hf
      rw [← h]
      simp only
      rw [h2, ← List.append_assoc]
      exact errorsConsistent_push _ added _ r.1 hinv (by rw [h1]; rfl)

theorem schema_consistent (reg : Registry) (loc : Loc) (options : Options) (schema : Schema)
    (st st' : SchemaRun) (outer : List ValidatorChain)
    (h : schema.foldlM (fieldStep reg loc options) st = some st')
    (hinv : errorsConsistent st.ctx._validationErrors (outer ++ st.chains)) :
    errorsConsistent st'.ctx._validationErrors (outer ++ st'.chains) := by
  induction schema generalizing st with
  | nil =>
    simp only [List.foldlM_nil, Option.pure_def, Option.some.injEq] at h
    rw [← h]; exact hinv
  | cons field rest ih =>
    simp only [List.foldlM_cons, Option.bind_eq_bind] at h
    cases hs : fieldStep reg loc options st field with
    | none => rw [hs] at h; simp at h
    | some st₁ =>
      rw [hs] at h
      simp only [Option.some_bind] at h
      exact ih st₁ h (fieldStep_consistent reg loc options st st₁ field outer hs hinv)

theorem step_consistent (reg : Registry) (options : Options) (s s' : Session) (op : SessionOp)
    (h : Session.step reg options s op = some s')
    (hinv : errorsConsistent s.ctx._validationErrors s.chains) :
    errorsConsistent s'.ctx._validationErrors s'.chains := by
  cases op with
  | check location param failMsg =>
    simp only [Session.step, Option.some.injEq] at h
    rw [← h]
    have := errorsConsistent_push s.ctx._validationErrors [] s.chains
      (ValidatorChain.new param failMsg s.ctx (location.or (locate s.ctx param)) options) hinv rfl
    simpa using this
  | checkSchema location schema =>
    simp only [Session.step] at h
    cases hr : validateSchemaRun reg schema s.ctx (location.getD .any) options with
    | none => rw [hr] at h; simp at h
    | some r =>
      rw [hr] at h
      simp only [Option.map_some', Option.some.injEq] at h
      rw [← h]
      exact schema_consistent reg (location.getD .any) options schema _ r s.chains hr
        (by simpa using hinv)
  | call i methodName args =>
    simp only [Session.step] at h
    cases hc : s.chains[i]? with
    | none => rw [hc] at h; simp at h
    | some c =>
      rw [hc] at h
      simp only at h
      cases hi : ValidatorChain.invoke reg methodName args (c, s.ctx) with
      | none => rw [hi] at h; simp at h
      | some r =>
        rw [hi] at h
        simp only [Option.map_some', Option.some.injEq] at h
        obtain ⟨added, h1, h2⟩ := invoke_appends reg methodName args c r.1 s.ctx r.2 hi
        rw [← h]
        simp only
        rw [h2]
        exact errorsConsistent_set _ added _ i c r.1 hinv hc h1

theorem run_consistent (reg : Registry) (options : Options) (ops : List SessionOp)
    (s s' : Session) (h : Session.run reg options ops s = some s')
    (hinv : errorsConsistent s.ctx._validationErrors s.chains) :
    errorsConsistent s'.ctx._validationErrors s'.chains := by
  induction ops generalizing s with
  | nil =>
    simp only [Session.run, List.foldlM_nil, Option.pure_def, Option.some.injEq] at h
    rw [← h]; exact hinv
  | cons op rest ih =>
    simp only [Session.run, List.foldlM_cons, Option.bind_eq_bind] at h
    cases hs : Session.step reg options s op with
    | none => rw [hs] at h; simp at h
    | some s₁ =>
      rw [hs] at h
      simp only [Option.some_bind] at h
      exact ih s₁ h (step_consistent reg options s s₁ op hs hinv)

/-! ### Claims -/

/-- C1: `locate` returns `params` when the path-params value at the name is
truthy, otherwise `query`, `body`, `header` in that order by key existence,
otherwise `undefined`.  On an object bucket a name that is an own key is found
by `_.has` whatever the value held and read by `_.get` as that value; a name
without `.` and brackets is one key, which `_.has` finds exactly when it is an
own key and `_.get` reads as the own value or else as what `Object.prototype`
provides under that name.  So a name held with `0`, `false` or `''` in the
path params only is not located, while a name whose path-params value is falsy
and that is held with such a value in the query, body or header is located
there.  A name with `.` that is no key is a path (`user.name` is found in the
body `{user: {name: 'x'}}`), and `constructor`, which every object inherits, is
located in the path params. -/
theorem locate_precedence (ctx : Ctx) (name : Param) :
    locate ctx name =
        (if (Lodash.get ctx.params name).truthy = true then some Loc.params
         else if Lodash.has ctx.query name = true then some Loc.query
         else if Lodash.has ctx.body name = true then some Loc.body
         else if Lodash.has ctx.header name = true then some Loc.header
         else none)
      ∧ (∀ (k : String) (props : List (String × JsVal)) (v : JsVal),
          lookupKey k props = some v →
          Lodash.has (.obj props) (.name k) = true ∧ Lodash.get (.obj props) (.name k) = v)
      ∧ (∀ (k : String) (props : List (String × JsVal)), isDeepProp k = false →
          Lodash.has (.obj props) (.name k) = (lookupKey k props).isSome
            ∧ Lodash.get (.obj props) (.name k)
              = (match lookupKey k props with
                 | some v => v
                 | none => (lookupKey k objectPrototype).getD .undefined))
      ∧ (∀ (k : String), ∀ v ∈ [JsVal.num 0, .bool false, .str ""],
          locate
              { ctx with
                params := .obj [(k, v)], query := .obj [], body := .obj [],
                header := .obj [] }
              (.name k)
            = none
          ∧ (Lodash.determined ctx.params k = true →
              (Lodash.get ctx.params (.name k)).truthy = false →
              locate { ctx with query := .obj [(k, v)] } (.name k) = some Loc.query
                ∧ locate { ctx with query := .obj [], body := .obj [(k, v)] } (.name k)
                  = some Loc.body
                ∧ locate
                    { ctx with query := .obj [], body := .obj [], header := .obj [(k, v)] }
                    (.name k)
                  = some Loc.header))
      ∧ Lodash.has (.obj [("user", .obj [("name", .str "x")])]) (.name "user.name") = true
      ∧ locate { sampleCtx with body := .obj [("user", .obj [("name", .str "x")])] }
          (.name "user.name") = some Loc.body
      ∧ locate sampleCtx (.name "constructor") = some Loc.params := by
  refine ⟨rfl, fun k props v h => ?_, fun k props h => ?_, fun k v hv => ?_, rfl, rfl, rfl⟩
  · exact ⟨has_of_own k props (by simp [h]), get_of_own k props v h⟩
  · constructor
    · simp [Lodash.has, castPath_of_not_deep k _ h, hasPath, hasOwn]
    · simp only [Lodash.get, castPath_of_not_deep k _ h, baseGet, getProp]
      cases lookupKey k props <;> rfl
  · have hown : ∀ w : JsVal, Lodash.has (.obj [(k, w)]) (.name k) = true :=
      fun w => has_of_own k [(k, w)] (by simp [lookupKey])
    have hget : ∀ w : JsVal, Lodash.get (.obj [(k, w)]) (.name k) = w :=
      fun w => get_of_own k [(k, w)] w (by simp [lookupKey])
    have hfalsy : v.truthy = false := by
      simp only [List.mem_cons, List.mem_singleton, List.not_mem_nil, or_false] at hv
      rcases hv with h | h | h <;> subst h <;> rfl
    refine ⟨?_, fun _ hp => ?_⟩
    · simp [locate, hget, hfalsy, has_empty]
    · simp [locate, hp, hown, has_empty]

/-- C2 (the code departs from it): on the sample request, where `locate` finds
`age` in the query, the schema `{id: {isInt: {}}, age: {isInt: {},
errorMessage: 'must be int'}}` run with default location `any` binds the chain
of `age` to the body, where `id` was found: its value is `undefined`, not
`'17'`, and an error is recorded.  Alone in its schema, `age` is bound to
`'17'` and passes. -/
theorem validateSchema_any_keeps_previous_location :
    locate sampleCtx (.name "age") = some Loc.query
      ∧ (validateSchemaRun sampleRegistry
            [("age", [("isInt", .obj []), ("errorMessage", .str "must be int")])]
            sampleCtx .any {}).map (fun r => (r.chains.map ValidatorChain.value,
              r.ctx._validationErrors))
          = some ([.str "17"], [])
      ∧ (validateSchemaRun sampleRegistry
            [("id", [("isInt", .obj [])]),
             ("age", [("isInt", .obj []), ("errorMessage", .str "must be int")])]
            sampleCtx .any {}).map (fun r => (r.chains.map ValidatorChain.value,
              r.ctx._validationErrors))
          = some ([.str "5", .undefined],
              [.obj [("param", .str "age"), ("msg", .str "must be int"),
                ("value", .undefined)]]) :=
  ⟨rfl, rfl, rfl⟩

/-- C3: a field whose constraint set has an own `in` that names none of the four
known locations is skipped: the run of the schema (context, `currentLoc` and
chains built) is the run of the schema without that field, so is the error
list, and a schema made of that field alone leaves the context as it was. -/
theorem validateSchema_skips_unknown_in (reg : Registry) (loc : Loc) (options : Options)
    (ctx : Ctx) (before after : Schema) (fieldName : String) (constrains : ConstraintSet)
    (v : JsVal) (hin : lookupKey "in" constrains = some v) (hbad : knownLocation v = none) :
    validateSchemaRun reg (before ++ (fieldName, constrains) :: after) ctx loc options
        = validateSchemaRun reg (before ++ after) ctx loc options
      ∧ validateSchema reg (before ++ (fieldName, constrains) :: after) ctx loc options
        = validateSchema reg (before ++ after) ctx loc options
      ∧ validateSchemaRun reg [(fieldName, constrains)] ctx loc options
        = some { currentLoc := some loc, ctx := ctx, chains := [] }
      ∧ validateSchema reg [(fieldName, constrains)] ctx loc options = some ctx := by
  have key : validateSchemaRun reg (before ++ (fieldName, constrains) :: after) ctx loc options
        = validateSchemaRun reg (before ++ after) ctx loc options := by
    simp only [validateSchemaRun, List.foldlM_append, List.foldlM_cons]
    congr 1
    funext st
    simp [fieldStep_skip reg loc options st fieldName constrains v hin hbad]
  refine ⟨key, ?_, ?_, ?_⟩
  · simp only [validateSchema, key]
  · simp [validateSchemaRun, fieldStep_skip reg loc options _ fieldName constrains v hin hbad]
  · simp [validateSchema, validateSchemaRun,
      fieldStep_skip reg loc options _ fieldName constrains v hin hbad]

/-- Witness of C3: the field `role` declared `{in: 'bogus', notEmpty: {}}`
between two fields of a schema on the sample request. -/
theorem validateSchema_skips_unknown_in_witness :
    lookupKey "in" [("in", JsVal.str "bogus"), ("notEmpty", .obj [])] = some (.str "bogus")
      ∧ knownLocation (.str "bogus") = none
      ∧ (validateSchemaRun sampleRegistry
            ([("id", [("isInt", .obj [])])]
              ++ ("role", [("in", .str "bogus"), ("notEmpty", .obj [])])
                :: [("name", [("notEmpty", .obj [])])])
            sampleCtx .any {}
          = validateSchemaRun sampleRegistry
              ([("id", [("isInt", .obj [])])] ++ [("name", [("notEmpty", .obj [])])])
              sampleCtx .any {}
        ∧ validateSchema sampleRegistry
            ([("id", [("isInt", .obj [])])]
              ++ ("role", [("in", .str "bogus"), ("notEmpty", .obj [])])
                :: [("name", [("notEmpty", .obj [])])])
            sampleCtx .any {}
          = validateSchema sampleRegistry
              ([("id", [("isInt", .obj [])])] ++ [("name", [("notEmpty", .obj [])])])
              sampleCtx .any {}
        ∧ validateSchemaRun sampleRegistry
            [("role", [("in", .str "bogus"), ("notEmpty", .obj [])])] sampleCtx .any {}
          = some { currentLoc := some Loc.any, ctx := sampleCtx, chains := [] }
        ∧ validateSchema sampleRegistry
            [("role", [("in", .str "bogus"), ("notEmpty", .obj [])])] sampleCtx .any {}
          = some sampleCtx) :=
  ⟨rfl, rfl,
    validateSchema_skips_unknown_in sampleRegistry .any {} sampleCtx
      [("id", [("isInt", .obj [])])] [("name", [("notEmpty", .obj [])])] "role"
      [("in", .str "bogus"), ("notEmpty", .obj [])] (.str "bogus") rfl rfl⟩

/-- C4 (the code departs from it): with default location `any`, after the field
`id` declared `in: 'body'`, the field `age` is located by its own name (query,
value `'17'`), but the next field `x-token`, which `locate` finds in the
headers, is bound to the query, where `age` was found: its value is
`undefined` and `notEmpty` records an error.  Alone in its schema, `x-token`
is bound to `'t'` and passes. -/
theorem validateSchema_any_after_in_keeps_location :
    locate sampleCtx (.name "x-token") = some Loc.header
      ∧ (validateSchemaRun sampleRegistry [("x-token", [("notEmpty", .obj [])])]
            sampleCtx .any {}).map (fun r => (r.chains.map ValidatorChain.value,
              r.ctx._validationErrors))
          = some ([.str "t"], [])
      ∧ (validateSchemaRun sampleRegistry
            [("id", [("in", .str "body"), ("isInt", .obj [])]),
             ("age", [("isInt", .obj [])]),
             ("x-token", [("notEmpty", .obj [])])]
            sampleCtx .any {}).map (fun r => (r.chains.map ValidatorChain.value,
              r.ctx._validationErrors))
          = some ([.str "5", .str "17", .undefined],
              [.obj [("param", .str "x-token"), ("msg", .str "Invalid param"),
                ("value", .undefined)]]) :=
  ⟨rfl, rfl, rfl⟩

/-- C5: on a chain whose `skipValidating` is set, any sequence of calls of
predicate methods (registered built-in or custom predicates, `notEmpty`, `len`,
with any arguments) returns the chain and leaves it and the request context,
hence both error lists, as they were; so does each of its initial segments. -/
theorem skipped_chain_ignores_predicates (reg : Registry) (calls : List (String × List JsVal))
    (chain : ValidatorChain) (ctx : Ctx) (hskip : chain.skipValidating = true)
    (hcalls : ∀ call ∈ calls, reg.isPredicateMethod call.1 = true) :
    runCalls reg calls (chain, ctx) = some (chain, ctx)
      ∧ ∀ n, runCalls reg (calls.take n) (chain, ctx) = some (chain, ctx) :=
  ⟨runCalls_skipped reg calls chain ctx hskip hcalls,
    fun n => runCalls_skipped reg (calls.take n) chain ctx hskip
      fun c hc => hcalls c (List.mem_of_mem_take hc)⟩

/-- Witness of C5: three predicate calls on the sample chain once skipped. -/
theorem skipped_chain_ignores_predicates_witness :
    ({ sampleChain with skipValidating := true } : ValidatorChain).skipValidating = true
      ∧ (∀ call ∈ [("isInt", []), ("notEmpty", []), ("len", [JsVal.obj [("min", .num 9)]])],
          sampleRegistry.isPredicateMethod call.1 = true)
      ∧ (runCalls sampleRegistry
            [("isInt", []), ("notEmpty", []), ("len", [JsVal.obj [("min", .num 9)]])]
            ({ sampleChain with skipValidating := true }, sampleCtx)
          = some ({ sampleChain with skipValidating := true }, sampleCtx)
        ∧ ∀ n, runCalls sampleRegistry
            (([("isInt", []), ("notEmpty", []),
                ("len", [JsVal.obj [("min", .num 9)]])] : List (String × List JsVal)).take n)
            ({ sampleChain with skipValidating := true }, sampleCtx)
          = some ({ sampleChain with skipValidating := true }, sampleCtx)) :=
  have hcalls : ∀ call ∈ [("isInt", []), ("notEmpty", []),
      ("len", [JsVal.obj [("min", .num 9)]])],
      sampleRegistry.isPredicateMethod call.1 = true := by
    intro call hc
    simp only [List.mem_cons, List.mem_singleton, List.not_mem_nil, or_false] at hc
    rcases hc with h | h | h <;> subst h <;> rfl
  ⟨rfl, hcalls,
    skipped_chain_ignores_predicates sampleRegistry _ { sampleChain with skipValidating := true }
      sampleCtx rfl hcalls⟩

/-- C6: on an active chain, `optional` with `checkFalsy` true sets
`skipValidating` exactly when the value is falsy, and with `checkFalsy` false
(the default when the argument or its `checkFalsy` is absent) exactly when the
value is `undefined`; so `0`, `''`, `false`, `null`, `undefined` and `NaN` are
skipped under `checkFalsy`, and of these only `undefined` under the default. -/
theorem optional_sets_skip (chain : ValidatorChain) (hactive : chain.skipValidating = false) :
    (chain.optional (.bool true)).skipValidating = !chain.value.truthy
      ∧ (chain.optional (.bool false)).skipValidating = chain.value.isUndefined
      ∧ checkFalsyOf (.obj [("checkFalsy", .bool true)]) = some (.bool true)
      ∧ checkFalsyOf (.obj [("checkFalsy", .bool false)]) = some (.bool false)
      ∧ checkFalsyOf (.obj []) = some (.bool false)
      ∧ checkFalsyOf .undefined = some (.bool false)
      ∧ (∀ v ∈ [JsVal.num 0, .str "", .bool false, .null, .undefined, .nan],
          ({ chain with value := v }.optional (.bool true)).skipValidating = true)
      ∧ (∀ v ∈ [JsVal.num 0, .str "", .bool false, .null, .nan],
          ({ chain with value := v }.optional (.bool false)).skipValidating = false)
      ∧ ({ chain with value := .undefined }.optional (.bool false)).skipValidating = true := by
  refine ⟨?_, ?_, rfl, rfl, rfl, rfl, ?_, ?_, ?_⟩
  · unfold ValidatorChain.optional
    cases h : chain.value.truthy <;> simp [truthy, h, hactive]
  · unfold ValidatorChain.optional
    cases h : chain.value.isUndefined <;> simp [truthy, h, hactive]
  · intro v hv
    simp only [List.mem_cons, List.mem_singleton, List.not_mem_nil, or_false] at hv
    rcases hv with h | h | h | h | h | h <;> subst h <;> simp [ValidatorChain.optional, truthy]
  · intro v hv
    simp only [List.mem_cons, List.mem_singleton, List.not_mem_nil, or_false] at hv
    rcases hv with h | h | h | h | h <;> subst h <;>
      simp [ValidatorChain.optional, truthy, JsVal.isUndefined, hactive]
  · simp [ValidatorChain.optional, truthy, JsVal.isUndefined]

/-- Witness of C6: the sample chain, whose value is `'17'`, is still validated
after `optional` under either policy. -/
theorem optional_sets_skip_witness :
    sampleChain.skipValidating = false
      ∧ (sampleChain.optional (.bool true)).skipValidating = false
      ∧ (sampleChain.optional (.bool false)).skipValidating = false :=
  ⟨rfl, (optional_sets_skip sampleChain rfl).1.trans rfl,
    (optional_sets_skip sampleChain rfl).2.1.trans rfl⟩

/-- C7: a predicate call on an active chain whose predicate returns false
appends one record, the same one, at the end of the chain's error list and of
the shared error list, sets `lastError`, and changes nothing else but
`skipValidating`; a call whose predicate returns true sets `lastError` to
`null` and changes nothing else.  The result is the chain in both cases.
Every call of a predicate method is such a call. -/
theorem predicate_call_effect (isBuiltin : Bool) (fn : Predicate) (rest : List JsVal)
    (chain : ValidatorChain) (ctx : Ctx) (hactive : chain.skipValidating = false) :
    (isValidOf isBuiltin fn rest chain ctx = false →
        (dynamicValidator isBuiltin fn rest (chain, ctx)).1 =
            { chain with
              validationErrors := chain.validationErrors ++ [errorOf chain]
              lastError := some { param := chain.param, value := chain.value, isAsync := false }
              skipValidating := chain.skipValidationOnFirstError }
          ∧ (dynamicValidator isBuiltin fn rest (chain, ctx)).2 =
            { ctx with _validationErrors := ctx._validationErrors ++ [errorOf chain] }
          ∧ (dynamicValidator isBuiltin fn rest (chain, ctx)).1.validationErrors
            = chain.validationErrors ++ [errorOf chain]
          ∧ (dynamicValidator isBuiltin fn rest (chain, ctx)).2._validationErrors
            = ctx._validationErrors ++ [errorOf chain]
          ∧ (dynamicValidator isBuiltin fn rest (chain, ctx)).1.lastError.isSome = true)
      ∧ (isValidOf isBuiltin fn rest chain ctx = true →
        (dynamicValidator isBuiltin fn rest (chain, ctx)).1 = { chain with lastError := none }
          ∧ (dynamicValidator isBuiltin fn rest (chain, ctx)).2 = ctx
          ∧ (dynamicValidator isBuiltin fn rest (chain, ctx)).1.validationErrors
            = chain.validationErrors
          ∧ (dynamicValidator isBuiltin fn rest (chain, ctx)).1.lastError = none)
      ∧ (∀ (reg : Registry) (call : String × List JsVal),
          reg.isPredicateMethod call.1 = true →
          ∃ (b : Bool) (f : Predicate) (args : List JsVal),
            ∀ s, ValidatorChain.invoke reg call.1 call.2 s = some (dynamicValidator b f args s)) := by
  refine ⟨?_, ?_, fun reg call hcall => ?_⟩
  · intro h
    simp [dynamicValidator, hactive, h]
  · intro h
    simp [dynamicValidator, hactive, h]
  · obtain ⟨b, f, args, h, _⟩ := invoke_predicate reg call hcall
    exact ⟨b, f, args, h⟩

/-- Witness of C7: `isLength({min: 9})` fails and `isInt()` passes on the
sample chain, whose value is `'17'`. -/
theorem predicate_call_effect_witness :
    sampleChain.skipValidating = false
      ∧ isValidOf true validatorIsLength [.obj [("min", .num 9)]] sampleChain sampleCtx = false
      ∧ (dynamicValidator true validatorIsLength [.obj [("min", .num 9)]]
            (sampleChain, sampleCtx)).1.validationErrors
          = sampleChain.validationErrors ++ [errorOf sampleChain]
      ∧ isValidOf true validatorIsInt [] sampleChain sampleCtx = true
      ∧ (dynamicValidator true validatorIsInt [] (sampleChain, sampleCtx)).2 = sampleCtx :=
  ⟨rfl, rfl,
    ((predicate_call_effect true validatorIsLength [.obj [("min", .num 9)]] sampleChain
      sampleCtx rfl).1 rfl).2.2.1,
    rfl, ((predicate_call_effect true validatorIsInt [] sampleChain sampleCtx rfl).2.1 rfl).2.1⟩

/-- C8: on a chain constructed with `skipValidationOnFirstError`, a sequence of
predicate calls runs to its end and records at most one error: the chain's
list holds at most one record and the shared list is extended by the chain's
list; when every call passes nothing is recorded; otherwise the end state is
the state right after the first failing call, whose record is the one kept. -/
theorem skipOnFirstError_stops_after_first_failure (reg : Registry) (param : Param)
    (failMsg : JsVal) (ctx : Ctx) (location : Option Loc) (options : Options)
    (calls : List (String × List JsVal))
    (hstop : options.skipValidationOnFirstError = true)
    (hcalls : ∀ call ∈ calls, reg.isPredicateMethod call.1 = true) :
    ∃ c' ctx',
      runCalls reg calls (ValidatorChain.new param failMsg ctx location options, ctx)
          = some (c', ctx')
        ∧ c'.validationErrors.length ≤ 1
        ∧ ctx'._validationErrors = ctx._validationErrors ++ c'.validationErrors
        ∧ ((∀ call ∈ calls,
              reg.isValidCall call (ValidatorChain.new param failMsg ctx location options) ctx
                = true) →
            c'.validationErrors = [])
        ∧ (∀ pre call post, calls = pre ++ call :: post →
            (∀ p ∈ pre,
              reg.isValidCall p (ValidatorChain.new param failMsg ctx location options) ctx
                = true) →
            reg.isValidCall call (ValidatorChain.new param failMsg ctx location options) ctx
                = false →
            runCalls reg (pre ++ [call])
                (ValidatorChain.new param failMsg ctx location options, ctx) = some (c', ctx')
              ∧ c'.validationErrors
                = [errorOf (ValidatorChain.new param failMsg ctx location options)]) := by
  have hfresh : (ValidatorChain.new param failMsg ctx location options).validationErrors = [] :=
    rfl
  rcases runCalls_stop_on_first reg calls hcalls
      (ValidatorChain.new param failMsg ctx location options) ctx rfl hstop with
    ⟨hall, c', hrun, herr⟩ | ⟨pre0, call0, post0, c', ctx', hsplit, hpre0, hfail0, hrun, hrun', herr, hctx⟩
  · refine ⟨c', ctx, hrun, ?_, ?_, ?_, ?_⟩
    · simp [herr, hfresh]
    · simp [herr, hfresh]
    · intro _; rw [herr, hfresh]
    · intro pre call post hsplit _ hfail
      have := hall call (by rw [hsplit]; simp)
      rw [this] at hfail
      exact absurd hfail (by simp)
  · rw [hfresh, List.nil_append] at herr
    refine ⟨c', ctx', hrun, ?_, ?_, ?_, ?_⟩
    · simp [herr]
    · rw [hctx, herr]
    · intro hall
      have := hall call0 (by rw [hsplit]; simp)
      rw [this] at hfail0
      exact absurd hfail0 (by simp)
    · intro pre call post hsplit' hpre hfail
      have huniq := first_failure_unique
        (fun p => reg.isValidCall p (ValidatorChain.new param failMsg ctx location options) ctx
          = true)
        pre pre0 call call0 post post0 (hsplit' ▸ hsplit) hpre (by simp [hfail]) hpre0
        (by simp [hfail0])
      rw [huniq.1, huniq.2]
      exact ⟨hrun', herr⟩

/-- Witness of C8: on the chain of `age` built with `skipValidationOnFirstError`,
of the calls `isInt()`, `len({min: 9})`, `len({min: 5})` the second is the first
to fail and the third records nothing. -/
theorem skipOnFirstError_stops_after_first_failure_witness :
    ({ skipValidationOnFirstError := true } : Options).skipValidationOnFirstError = true
      ∧ (∀ call ∈ [("isInt", []), ("len", [JsVal.obj [("min", .num 9)]]),
            ("len", [JsVal.obj [("min", .num 5)]])],
          sampleRegistry.isPredicateMethod call.1 = true)
      ∧ ∃ c' ctx',
          runCalls sampleRegistry
              [("isInt", []), ("len", [JsVal.obj [("min", .num 9)]]),
                ("len", [JsVal.obj [("min", .num 5)]])]
              (ValidatorChain.new (.name "age") .undefined sampleCtx (some .query)
                { skipValidationOnFirstError := true }, sampleCtx)
            = some (c', ctx')
          ∧ c'.validationErrors.length ≤ 1
          ∧ ctx'._validationErrors = sampleCtx._validationErrors ++ c'.validationErrors :=
  have hcalls : ∀ call ∈ [("isInt", []), ("len", [JsVal.obj [("min", .num 9)]]),
      ("len", [JsVal.obj [("min", .num 5)]])],
      sampleRegistry.isPredicateMethod call.1 = true := by
    intro call hc
    simp only [List.mem_cons, List.mem_singleton, List.not_mem_nil, or_false] at hc
    rcases hc with h | h | h <;> subst h <;> rfl
  ⟨rfl, hcalls,
    (skipOnFirstError_stops_after_first_failure sampleRegistry (.name "age") .undefined sampleCtx
        (some .query) { skipValidationOnFirstError := true } _ rfl hcalls).imp
      fun _ h => h.imp fun _ h => ⟨h.1, h.2.1, h.2.2.1⟩⟩

/-- C9: with a falsy `mapped`, `ctx.valid` returns the merged parameters when
the error list is empty and otherwise throws one `KoaValidatorException`
whose sequence is the list deduplicated by `_.isEqual`: no two of its members
are equal, every record of the list is equal to one of its members, and its
members are the records of the list that are equal to no earlier record, in
the order of the list.  A record, the same record again and a different one
give two records. -/
theorem valid_throws_deduplicated (ctx : Ctx) (mapped : JsVal) (hm : mapped.truthy = false)
    (hwf : ∀ e ∈ ctx._validationErrors, e.wellFormed = true) :
    (ctx._validationErrors = [] → valid ctx mapped = .params (_getParams ctx))
      ∧ (ctx._validationErrors ≠ [] →
          ∃ errMsg, valid ctx mapped = .throwsValidation errMsg
            ∧ errMsg.Pairwise (fun a b => isEqual a b = false ∧ isEqual b a = false)
            ∧ (∀ e ∈ ctx._validationErrors, ∃ r ∈ errMsg, isEqual e r = true)
            ∧ errMsg = firstOccurrences isEqual [] ctx._validationErrors
            ∧ errMsg.Sublist ctx._validationErrors)
      ∧ (∀ a b : JsVal, a.wellFormed = true → b.wellFormed = true → isEqual a b = false →
          valid { ctx with _validationErrors := [a, a, b] } mapped = .throwsValidation [a, b]) := by
  refine ⟨fun h => by simp [valid, h], fun hne => ?_, fun a b ha hb hab => ?_⟩
  · have hlen : ctx._validationErrors.length > 0 := List.length_pos.2 hne
    have hfo := uniq_fold_eq_firstOccurrences isEqual isEqual_trans ctx._validationErrors [] []
      (fun _ => rfl)
    rw [List.nil_append] at hfo
    obtain ⟨h1, h2⟩ := uniq_fold_spec isEqual (fun v => v.wellFormed = true) isEqual_refl
      isEqual_symm ctx._validationErrors hwf [] (fun _ h => absurd h (List.not_mem_nil _))
      List.Pairwise.nil
    refine ⟨Lodash.uniqWith isEqual ctx._validationErrors, by simp [valid, hm, hlen], h1,
      fun e he => h2 e (Or.inr he), hfo, ?_⟩
    rw [Lodash.uniqWith, hfo]
    exact firstOccurrences_sublist _ _ _
  · have haa := isEqual_refl a ha
    have hba : isEqual b a = false := by
      cases h : isEqual b a with
      | false => rfl
      | true => rw [isEqual_symm b a hb h] at hab; exact absurd hab (by simp)
    simp [valid, hm, Lodash.uniqWith, uniqStep, haa, hba]

/-- Witness of C9: the error list of two failures of `age` with the same record,
its keys in a different order the second time, and one failure of `name`. -/
theorem valid_throws_deduplicated_witness :
    JsVal.undefined.truthy = false
      ∧ (∀ e ∈ [JsVal.obj [("param", .str "age"), ("msg", .str "must be int"),
                  ("value", .str "x")],
                .obj [("msg", .str "must be int"), ("value", .str "x"),
                  ("param", .str "age")],
                .obj [("param", .str "name"), ("msg", .str "Invalid param"),
                  ("value", .undefined)]],
          e.wellFormed = true)
      ∧ valid
          { sampleCtx with
            _validationErrors :=
              [.obj [("param", .str "age"), ("msg", .str "must be int"), ("value", .str "x")],
               .obj [("msg", .str "must be int"), ("value", .str "x"), ("param", .str "age")],
               .obj [("param", .str "name"), ("msg", .str "Invalid param"),
                 ("value", .undefined)]] }
          .undefined
        = .throwsValidation
            [.obj [("param", .str "age"), ("msg", .str "must be int"), ("value", .str "x")],
             .obj [("param", .str "name"), ("msg", .str "Invalid param"),
               ("value", .undefined)]] :=
  have hwf : ∀ e ∈ [JsVal.obj [("param", .str "age"), ("msg", .str "must be int"),
                  ("value", .str "x")],
                .obj [("msg", .str "must be int"), ("value", .str "x"),
                  ("param", .str "age")],
                .obj [("param", .str "name"), ("msg", .str "Invalid param"),
                  ("value", .undefined)]],
          e.wellFormed = true := by
    intro e he
    simp only [List.mem_cons, List.mem_singleton, List.not_mem_nil, or_false] at he
    rcases he with h | h | h <;> subst h <;> rfl
  ⟨rfl, hwf,
    Exists.elim
      ((valid_throws_deduplicated
          { sampleCtx with
            _validationErrors :=
              [.obj [("param", .str "age"), ("msg", .str "must be int"), ("value", .str "x")],
               .obj [("msg", .str "must be int"), ("value", .str "x"), ("param", .str "age")],
               .obj [("param", .str "name"), ("msg", .str "Invalid param"),
                 ("value", .undefined)]] }
          .undefined rfl hwf).2.1 (by simp))
      fun _ h => h.1.trans (by rw [h.2.2.2.1]; rfl)⟩

/-- C10 (counterexample): with `mapped = true` and the one record that
`ctx.checkBody('__proto__').notEmpty()` leaves on a request without that field,
`ctx.valid` returns an object without own keys, although `'__proto__'` is the
`param` of a record of the list: the assignment `errors['__proto__'] = err`
runs the setter that `Object.prototype` has under that name.  So the keys of
the map are not exactly the `param` strings of the list. -/
theorem valid_mapped_proto_param_no_entry :
    valid
        { sampleCtx with
          _validationErrors :=
            [.obj [("param", .str "__proto__"), ("msg", .str "Invalid value"),
              ("value", .undefined)]] }
        (.bool true)
      = .errorMap []
      ∧ paramKey
          (.obj [("param", .str "__proto__"), ("msg", .str "Invalid value"),
            ("value", .undefined)]) = "__proto__"
      ∧ ¬ (∀ errors,
            valid
                { sampleCtx with
                  _validationErrors :=
                    [.obj [("param", .str "__proto__"), ("msg", .str "Invalid value"),
                      ("value", .undefined)]] }
                (.bool true)
              = .errorMap errors →
            ∀ k, k ∈ errors.map Prod.fst
              ↔ ∃ e ∈ [JsVal.obj [("param", .str "__proto__"), ("msg", .str "Invalid value"),
                    ("value", .undefined)]], paramKey e = k) := by
  refine ⟨rfl, rfl, fun h => ?_⟩
  have h1 := (h [] rfl "__proto__").2 ⟨_, List.mem_singleton_self _, rfl⟩
  simp at h1

/-- C10 (amended): with a truthy `mapped` and a non-empty error list of records,
`ctx.valid` returns the object whose own keys are the `param` keys that occur
in the list other than `'__proto__'`, each once, and whose value at such a key
is the last record of the list with that `param`; a record whose `param` is
`'__proto__'` adds no entry.  Two records with the same `param`, if it is not
`'__proto__'`, give one entry, the second record.  A record is an entry that
is neither `null` nor `undefined` and whose `param` converts to a string. -/
theorem valid_mapped_last_write_wins (ctx : Ctx) (mapped : JsVal) (hm : mapped.truthy = true)
    (hne : ctx._validationErrors ≠ [])
    (hrec : ∀ e ∈ ctx._validationErrors, isRecord e = true) :
    (∃ errors, valid ctx mapped = .errorMap errors
        ∧ (∀ k, k ≠ "__proto__" → lookupKey k errors
            = ctx._validationErrors.reverse.find? fun e => paramKey e == k)
        ∧ lookupKey "__proto__" errors = none
        ∧ (errors.map Prod.fst).Nodup
        ∧ (∀ k, k ∈ errors.map Prod.fst
            ↔ k ≠ "__proto__" ∧ ∃ e ∈ ctx._validationErrors, paramKey e = k))
      ∧ (∀ e₁ e₂ : JsVal, isRecord e₁ = true → isRecord e₂ = true →
          paramKey e₁ = paramKey e₂ → paramKey e₂ ≠ "__proto__" →
          valid { ctx with _validationErrors := [e₁, e₂] } mapped
            = .errorMap [(paramKey e₂, e₂)]) := by
  have hnn : ∀ e : JsVal, isRecord e = true → e.isNullish = false := by
    intro e he
    simp only [isRecord, Bool.and_eq_true, Bool.not_eq_true'] at he
    exact he.1
  constructor
  · have hlen : ctx._validationErrors.length > 0 := List.length_pos.2 hne
    obtain ⟨errors, h1, h2, h3, h4⟩ := mappedErrors_fold ctx._validationErrors
      (fun e he => hnn e (hrec e he)) [] List.nodup_nil (by simp)
    have hlook : ∀ k, k ≠ "__proto__" → lookupKey k errors
        = ctx._validationErrors.reverse.find? fun e => paramKey e == k := by
      intro k hk
      rw [h2 k hk]
      simp [lookupKey]
    have hnone : lookupKey "__proto__" errors = none := by
      cases hl : lookupKey "__proto__" errors with
      | none => rfl
      | some w =>
        exact absurd (List.mem_map.2 ⟨("__proto__", w), lookupKey_mem _ _ _ hl, rfl⟩) h4
    refine ⟨errors, ?_, hlook, hnone, h3, fun k => ?_⟩
    · simp only [valid, hm, hlen, decide_True, Bool.and_self, if_true, mappedErrors, h1]
    · constructor
      · intro hk
        have hkp : k ≠ "__proto__" := fun h => h4 (h ▸ hk)
        obtain ⟨v, hv⟩ := lookupKey_isSome_of_mem_keys k errors hk
        rw [hlook k hkp] at hv
        have hmem := List.mem_of_find?_eq_some hv
        have hp := List.find?_some hv
        exact ⟨hkp, v, List.mem_reverse.1 hmem, by simpa using hp⟩
      · rintro ⟨hkp, e, he, hk⟩
        cases hf : List.find? (fun e => paramKey e == k) ctx._validationErrors.reverse with
        | none =>
          have := List.find?_eq_none.1 hf e (List.mem_reverse.2 he)
          simp [hk] at this
        | some v =>
          rw [← hlook k hkp] at hf
          exact List.mem_map.2 ⟨(k, v), lookupKey_mem _ _ _ hf, rfl⟩
  · intro e₁ e₂ hr₁ hr₂ hk hp
    have h₁ := hnn e₁ hr₁
    have h₂ := hnn e₂ hr₂
    have hp₁ : paramKey e₁ ≠ "__proto__" := hk ▸ hp
    have hs₁ : assignProp (toStr (getProp e₁ "param")) e₁ [] = [(paramKey e₂, e₁)] := by
      have := assignProp_other (paramKey e₁) e₁ [] hp₁
      simp only [setProp, hk] at this
      rw [← this, ← hk]
      rfl
    have hs₂ : assignProp (toStr (getProp e₂ "param")) e₂ [(paramKey e₂, e₁)]
        = [(paramKey e₂, e₂)] := by
      have := assignProp_other (paramKey e₂) e₂ [(paramKey e₂, e₁)] hp
      simpa [paramKey, setProp] using this
    simp [valid, hm, mappedErrors, member_of_not_nullish, h₁, h₂, hs₁, hs₂]

/-- Witness of C10: two failures of `age`, the second with another message, and
one of `name`; the entry of `age` is the second failure. -/
theorem valid_mapped_last_write_wins_witness :
    (JsVal.bool true).truthy = true
      ∧ ({ sampleCtx with
            _validationErrors :=
              [.obj [("param", .str "age"), ("msg", .str "must be int"), ("value", .str "x")],
               .obj [("param", .str "name"), ("msg", .str "Invalid param"),
                 ("value", .undefined)],
               .obj [("param", .str "age"), ("msg", .str "too short"),
                 ("value", .str "x")]] } : Ctx)._validationErrors ≠ []
      ∧ (∀ e ∈ [JsVal.obj [("param", .str "age"), ("msg", .str "must be int"),
                  ("value", .str "x")],
                .obj [("param", .str "name"), ("msg", .str "Invalid param"),
                  ("value", .undefined)],
                .obj [("param", .str "age"), ("msg", .str "too short"),
                  ("value", .str "x")]],
          isRecord e = true)
      ∧ ∃ errors,
          valid
              { sampleCtx with
                _validationErrors :=
                  [.obj [("param", .str "age"), ("msg", .str "must be int"),
                     ("value", .str "x")],
                   .obj [("param", .str "name"), ("msg", .str "Invalid param"),
                     ("value", .undefined)],
                   .obj [("param", .str "age"), ("msg", .str "too short"),
                     ("value", .str "x")]] }
              (.bool true)
            = .errorMap errors
          ∧ lookupKey "age" errors
            = some (.obj [("param", .str "age"), ("msg", .str "too short"),
                ("value", .str "x")])
          ∧ (errors.map Prod.fst).Nodup :=
  have hrec : ∀ e ∈ [JsVal.obj [("param", .str "age"), ("msg", .str "must be int"),
                  ("value", .str "x")],
                .obj [("param", .str "name"), ("msg", .str "Invalid param"),
                  ("value", .undefined)],
                .obj [("param", .str "age"), ("msg", .str "too short"),
                  ("value", .str "x")]],
          isRecord e = true := by
    intro e he
    simp only [List.mem_cons, List.mem_singleton, List.not_mem_nil, or_false] at he
    rcases he with h | h | h <;> subst h <;> rfl
  ⟨rfl, by simp, hrec,
    (valid_mapped_last_write_wins
        { sampleCtx with
          _validationErrors :=
            [.obj [("param", .str "age"), ("msg", .str "must be int"), ("value", .str "x")],
             .obj [("param", .str "name"), ("msg", .str "Invalid param"),
               ("value", .undefined)],
             .obj [("param", .str "age"), ("msg", .str "too short"), ("value", .str "x")]] }
        (.bool true) rfl (by simp) hrec).1.imp
      fun _ h => ⟨h.1, (h.2.1 "age" (by decide)).trans rfl, h.2.2.2.1⟩⟩

/-- C11: with a truthy `mapped`, `ctx.valid` never throws the aggregate
`KoaValidatorException`: on an empty error list it returns the merged request
parameters, and on a non-empty list of records it returns the error map. -/
theorem valid_mapped_never_throws_validation (ctx : Ctx) (mapped : JsVal)
    (hm : mapped.truthy = true) :
    (∀ errMsg, valid ctx mapped ≠ .throwsValidation errMsg)
      ∧ (ctx._validationErrors = [] → valid ctx mapped = .params (_getParams ctx))
      ∧ (ctx._validationErrors ≠ [] → (∀ e ∈ ctx._validationErrors, e.isNullish = false) →
          ∃ errors, mappedErrors ctx._validationErrors = some errors
            ∧ valid ctx mapped = .errorMap errors) := by
  refine ⟨fun errMsg => ?_, fun h => by simp [valid, h], fun hne hrec => ?_⟩
  · unfold valid
    by_cases hlen : ctx._validationErrors.length > 0
    · simp only [hm, hlen, decide_True, Bool.and_self, if_true]
      cases mappedErrors ctx._validationErrors <;> simp
    · simp [hm, hlen]
  · have hlen : ctx._validationErrors.length > 0 := List.length_pos.2 hne
    obtain ⟨errors, h1, _, _⟩ := mappedErrors_fold ctx._validationErrors hrec [] List.nodup_nil
      (by simp)
    refine ⟨errors, h1, ?_⟩
    simp only [valid, hm, hlen, decide_True, Bool.and_self, if_true, mappedErrors, h1]

/-- Witness of C11: `valid(true)` on the sample request, without errors and with
one error. -/
theorem valid_mapped_never_throws_validation_witness :
    (JsVal.bool true).truthy = true
      ∧ valid sampleCtx (.bool true) = .params (_getParams sampleCtx)
      ∧ valid
          { sampleCtx with
            _validationErrors :=
              [.obj [("param", .str "age"), ("msg", .str "must be int"), ("value", .str "x")]] }
          (.bool true)
        = .errorMap
            [("age", .obj [("param", .str "age"), ("msg", .str "must be int"),
              ("value", .str "x")])] :=
  ⟨rfl, (valid_mapped_never_throws_validation sampleCtx (.bool true) rfl).2.1 rfl,
    Exists.elim
      ((valid_mapped_never_throws_validation
          { sampleCtx with
            _validationErrors :=
              [.obj [("param", .str "age"), ("msg", .str "must be int"), ("value", .str "x")]] }
          (.bool true) rfl).2.2 (by simp)
        (by
          intro e he
          simp only [List.mem_singleton] at he
          subst he
          rfl))
      fun _ h => h.2.trans (congrArg ValidOutcome.errorMap (Option.some.inj (h.1.symm.trans rfl)))⟩

/-- C12: on an empty error list `ctx.valid` returns the merged parameters: its
keys, each once, are the keys of params, query, body and of the headers
without the nine denylisted names; its value at a key is the value in the
latest of the sources query, params, body, headers that has the key, so a body
value overrides params and query and a header value that is not denylisted
overrides all three. -/
theorem valid_merges_sources (ctx : Ctx) (mapped : JsVal) (hempty : ctx._validationErrors = []) :
    valid ctx mapped = .params (_getParams ctx)
      ∧ ((_getParams ctx).map Prod.fst).Nodup
      ∧ (∀ k, k ∈ (_getParams ctx).map Prod.fst
          ↔ k ∈ (ownEntries ctx.params).map Prod.fst ∨ k ∈ (ownEntries ctx.query).map Prod.fst
            ∨ k ∈ (ownEntries ctx.body).map Prod.fst
            ∨ k ∈ (ownEntries (_delAttrInObj ctx.header headerOwnParams)).map Prod.fst)
      ∧ (∀ k, lookupKey k (_getParams ctx)
          = (lastValue k (ownEntries (_delAttrInObj ctx.header headerOwnParams))).or
              ((lastValue k (ownEntries ctx.body)).or
                ((lastValue k (ownEntries ctx.params)).or
                  (lastValue k (ownEntries ctx.query)))))
      ∧ (∀ (props : List (String × JsVal)) (k : String),
          (k ∈ (ownEntries (_delAttrInObj (.obj props) headerOwnParams)).map Prod.fst
              ↔ k ∈ props.map Prod.fst ∧ k ∉ headerOwnParams)
            ∧ (k ∉ headerOwnParams →
                lastValue k (ownEntries (_delAttrInObj (.obj props) headerOwnParams))
                  = lastValue k props))
      ∧ (∀ k v, lastValue k (ownEntries (_delAttrInObj ctx.header headerOwnParams)) = some v →
          lookupKey k (_getParams ctx) = some v)
      ∧ (∀ k v, lastValue k (ownEntries (_delAttrInObj ctx.header headerOwnParams)) = none →
          lastValue k (ownEntries ctx.body) = some v → lookupKey k (_getParams ctx) = some v) := by
  have hfilter : ∀ (props : List (String × JsVal)) (k : String),
      lastValue k (ownEntries (_delAttrInObj (.obj props) headerOwnParams))
        = if (!headerOwnParams.contains k) = true then lastValue k props else none := by
    intro props k
    exact lastValue_filter k props fun s => !headerOwnParams.contains s
  refine ⟨by simp [valid, hempty], getParams_nodup ctx, getParams_keys ctx,
    getParams_lookup ctx, fun props k => ⟨?_, fun hk => ?_⟩, fun k v h => ?_, fun k v h1 h2 => ?_⟩
  · rw [← lastValue_isSome_iff, ← lastValue_isSome_iff, hfilter]
    by_cases hk : k ∈ headerOwnParams
    · simp [hk]
    · simp [hk]
  · rw [hfilter]
    simp [hk]
  · rw [getParams_lookup, h]; rfl
  · rw [getParams_lookup, h1, h2]; rfl

/-- Witness of C12: the merged parameters of the request with overlapping
sources. -/
theorem valid_merges_sources_witness :
    overlapCtx._validationErrors = []
      ∧ valid overlapCtx .undefined
        = .params
            [("id", .str "b"), ("page", .str "2"), ("sort", .str "asc"), ("lang", .str "fr"),
             ("x-token", .str "t")] :=
  ⟨rfl, (valid_merges_sources overlapCtx .undefined rfl).1.trans rfl⟩

/-- C13: a constraint of a field that is no reserved key, whose predicate fails
on the active chain of the field, records the error that the formatter makes
with, as message, the `errorMessage` of the constraint when it is truthy,
otherwise the `errorMessage` of the field when it is truthy, otherwise
`'Invalid param'`; with the default formatter that message is the `msg` of the
record.  The keys `errorMessage` and `in` call no method of the chain, whatever
is registered, and the message of the field is the own `errorMessage` of its
constraint set, for a field without `in` and for a field whose `in` names one
of the four locations alike: the constraints of either run, in order, on the
chain of the field with that message. -/
theorem constraint_failure_message (reg : Registry) (loc : Loc) (paramErrorMessage : JsVal)
    (c : ValidatorChain) (ctx : Ctx) (l : Option Loc) (methodName : String)
    (methodOptions errorMessage options : JsVal) (args : List JsVal)
    (h1 : methodName ≠ "errorMessage") (h2 : methodName ≠ "in")
    (hm1 : member methodOptions "errorMessage" = some errorMessage)
    (hm2 : member methodOptions "options" = some options)
    (hsa : spreadArgs options = some args)
    (hp : reg.isPredicateMethod methodName = true)
    (hactive : c.skipValidating = false)
    (hfail : reg.isValidCall (methodName, args) c ctx = false) :
    (∃ c', constraintStep reg loc paramErrorMessage (c, ctx, l) (methodName, methodOptions)
          = some (c',
              { ctx with
                _validationErrors := ctx._validationErrors
                  ++ [c.errorFormatter (formatParamOutput c.param)
                        (if errorMessage.truthy = true then errorMessage
                         else if paramErrorMessage.truthy = true then paramErrorMessage
                         else .str "Invalid param")
                        c.value] }, l))
      ∧ (∀ p v, getProp
            (defaultErrorFormatter p
              (if errorMessage.truthy = true then errorMessage
               else if paramErrorMessage.truthy = true then paramErrorMessage
               else .str "Invalid param") v) "msg"
          = (if errorMessage.truthy = true then errorMessage
             else if paramErrorMessage.truthy = true then paramErrorMessage
             else .str "Invalid param"))
      ∧ (∀ v, constraintStep reg loc paramErrorMessage (c, ctx, l) ("errorMessage", v)
          = some (c, ctx, l))
      ∧ (∀ v, constraintStep reg loc paramErrorMessage (c, ctx, l) ("in", v)
          = some (c, ctx, some loc))
      ∧ (∀ (opts : Options) (st : SchemaRun) (fieldName : String) (constrains : ConstraintSet),
          lookupKey "in" constrains = none →
          fieldStep reg loc opts st (fieldName, constrains)
            = (constrains.foldlM
                (constraintStep reg loc ((lookupKey "errorMessage" constrains).getD .undefined))
                (ValidatorChain.new (.name fieldName) .null st.ctx
                    (if st.currentLoc = some Loc.any then locate st.ctx (.name fieldName)
                     else st.currentLoc) opts,
                  st.ctx,
                  if st.currentLoc = some Loc.any then locate st.ctx (.name fieldName)
                  else st.currentLoc)).map
              fun r => { currentLoc := r.2.2, ctx := r.2.1, chains := st.chains ++ [r.1] })
      ∧ (∀ (opts : Options) (st : SchemaRun) (fieldName : String) (constrains : ConstraintSet)
          (v : JsVal) (m : Loc),
          lookupKey "in" constrains = some v → knownLocation v = some m →
          fieldStep reg loc opts st (fieldName, constrains)
            = (constrains.foldlM
                (constraintStep reg loc ((lookupKey "errorMessage" constrains).getD .undefined))
                (ValidatorChain.new (.name fieldName) .null st.ctx (some m) opts, st.ctx,
                  some m)).map
              fun r => { currentLoc := r.2.2, ctx := r.2.1, chains := st.chains ++ [r.1] }) := by
  refine ⟨?_, fun p v => ?_, fun v => ?_, fun v => ?_, fun opts st fieldName constrains hin => ?_,
    fun opts st fieldName constrains v m hin hm => ?_⟩
  · obtain ⟨b, fn, rest, hinv, hval⟩ := invoke_predicate reg (methodName, args) hp
    obtain ⟨hmsg, htruthy⟩ := orElse_message errorMessage paramErrorMessage
    have hv : isValidOf b fn rest
        { c with failMsg := orElse (orElse errorMessage paramErrorMessage) (.str "Invalid param") }
        ctx = false := by
      rw [← hfail, hval]; rfl
    refine ⟨(afterCall false
      { c with failMsg := orElse (orElse errorMessage paramErrorMessage) (.str "Invalid param") }
      ctx).1, ?_⟩
    have hstep := hinv
      ({ c with failMsg := orElse (orElse errorMessage paramErrorMessage) (.str "Invalid param") },
        ctx)
    simp only at hstep
    have hactive' : ({ c with
        failMsg := orElse (orElse errorMessage paramErrorMessage) (.str "Invalid param") }
        : ValidatorChain).skipValidating = false := hactive
    rw [dynamicValidator_active b fn rest _ ctx hactive', hv] at hstep
    have herr : errorOf
        { c with failMsg := orElse (orElse errorMessage paramErrorMessage) (.str "Invalid param") }
        = c.errorFormatter (formatParamOutput c.param)
            (orElse (orElse errorMessage paramErrorMessage) (.str "Invalid param")) c.value := by
      simp only [errorOf, ValidatorChain.formatErrors, htruthy, if_true]
    rw [← hmsg]
    simp only [constraintStep, h1, h2, hm1, hm2, hsa, if_false, hstep, Option.map_some']
    simp only [afterCall, Bool.false_eq_true, if_false, herr]
  · simp [defaultErrorFormatter, getProp, lookupKey]
  · simp [constraintStep]
  · simp [constraintStep]
  · simp only [fieldStep, hin]
  · have hany : ¬ (some m = some Loc.any) := by
      intro h
      rw [Option.some.inj h] at hm
      exact knownLocation_ne_any v hm
    simp only [fieldStep, hin, hm, hany, if_false]

/-- Witness of C13: `isInt` fails on `age = 'x'`; the record carries the message
of the constraint, and through `validateSchema` the message of the constraint,
of the field, or the default, in that order of preference, also for a field
declared `in: 'query'`. -/
theorem constraint_failure_message_witness :
    "isInt" ≠ "errorMessage" ∧ "isInt" ≠ "in"
      ∧ member (.obj [("errorMessage", .str "must be int")]) "errorMessage"
        = some (.str "must be int")
      ∧ member (.obj [("errorMessage", .str "must be int")]) "options" = some .undefined
      ∧ spreadArgs .undefined = some []
      ∧ sampleRegistry.isPredicateMethod "isInt" = true
      ∧ badAgeChain.skipValidating = false
      ∧ sampleRegistry.isValidCall ("isInt", []) badAgeChain badAgeCtx = false
      ∧ (∃ c', constraintStep sampleRegistry .any (.str "bad age") (badAgeChain, badAgeCtx, none)
            ("isInt", .obj [("errorMessage", .str "must be int")])
          = some (c',
              { badAgeCtx with
                _validationErrors :=
                  [.obj [("param", .str "age"), ("msg", .str "must be int"),
                    ("value", .str "x")]] }, none))
      ∧ validateSchema sampleRegistry
          [("age", [("isInt", .obj [("errorMessage", .str "must be int")]),
                    ("errorMessage", .str "bad age")])] badAgeCtx .any {}
        = some
            { badAgeCtx with
              _validationErrors :=
                [.obj [("param", .str "age"), ("msg", .str "must be int"),
                  ("value", .str "x")]] }
      ∧ validateSchema sampleRegistry
          [("age", [("isInt", .obj []), ("errorMessage", .str "bad age")])] badAgeCtx .any {}
        = some
            { badAgeCtx with
              _validationErrors :=
                [.obj [("param", .str "age"), ("msg", .str "bad age"), ("value", .str "x")]] }
      ∧ validateSchema sampleRegistry [("age", [("isInt", .obj [])])] badAgeCtx .any {}
        = some
            { badAgeCtx with
              _validationErrors :=
                [.obj [("param", .str "age"), ("msg", .str "Invalid param"),
                  ("value", .str "x")]] }
      ∧ validateSchema sampleRegistry
          [("age", [("in", .str "query"), ("isInt", .obj []), ("errorMessage", .str "bad age")])]
          badAgeCtx .body {}
        = some
            { badAgeCtx with
              _validationErrors :=
                [.obj [("param", .str "age"), ("msg", .str "bad age"), ("value", .str "x")]] }
      ∧ validateSchema sampleRegistry
          [("age", [("in", .str "query"),
                    ("isInt", .obj [("errorMessage", .str "must be int")]),
                    ("errorMessage", .str "bad age")])]
          badAgeCtx .body {}
        = some
            { badAgeCtx with
              _validationErrors :=
                [.obj [("param", .str "age"), ("msg", .str "must be int"),
                  ("value", .str "x")]] } :=
  ⟨by decide, by decide, rfl, rfl, rfl, rfl, rfl, rfl,
    (constraint_failure_message sampleRegistry .any (.str "bad age") badAgeChain badAgeCtx none
      "isInt" (.obj [("errorMessage", .str "must be int")]) (.str "must be int") .undefined []
      (by decide) (by decide) rfl rfl rfl rfl rfl rfl).1.imp fun _ h => h.trans rfl,
    rfl, rfl, rfl, rfl, rfl⟩

/-- C14 (the code departs from it): `reduce` is called without an initial
value, so the first segment is the starting accumulator instead of being folded
onto the empty string.  The path `[0, 'name']` gives `'0name'` where the fold
from the empty string gives `'[0].name'`, and the one-segment path `[0]` gives
the number `0` where the fold gives the string `'[0]'`.  The two agree on
`['users', 0, 'name']`, which gives `'users[0].name'`, and on every path whose
first segment is a string that is not integer-like; a scalar name is returned
unchanged. -/
theorem formatParamOutput_starts_from_first_segment :
    formatParamOutput (.path (.num 0) [.str "name"]) = .str "0name"
      ∧ formatParamSpec [.num 0, .str "name"] = .str "[0].name"
      ∧ formatParamOutput (.path (.num 0) []) = .num 0
      ∧ formatParamSpec [.num 0] = .str "[0]"
      ∧ formatParamOutput (.path (.str "users") [.num 0, .str "name"]) = .str "users[0].name"
      ∧ formatParamSpec [.str "users", .num 0, .str "name"] = .str "users[0].name"
      ∧ (∀ (s : String) (rest : List JsVal), isInt s = false →
          formatParamOutput (.path (.str s) rest) = formatParamSpec (.str s :: rest))
      ∧ (∀ s : String, formatParamOutput (.name s) = .str s) := by
  refine ⟨rfl, rfl, rfl, rfl, rfl, rfl, fun s rest h => ?_, fun s => rfl⟩
  simp only [formatParamOutput, formatParamSpec, List.foldl_cons, formatStep_empty s h]

/-- C15: on an active chain, the method of a custom predicate, when no field of
the chain has its name, calls it with the raw value of the chain, the arguments
of the call and the request context, and the method of a built-in predicate
calls it with the string `toString(value)` that the helper returns, the
arguments of the call and no context; the outcome of the call is decided by
that result alone.  The custom validators are taken to leave the chain alone
(none is named `skipValidating` or `formatErrors`).  `toString` maps `null` and
`undefined` to the empty string; it returns no string for an object with an own
`toString` that is no function, where it throws, and it gives `10^21` as
`'1e+21'`. -/
theorem predicate_arguments (reg : Registry) (methodName : String) (fn : Predicate)
    (args : List JsVal) (chain : ValidatorChain) (ctx : Ctx)
    (hactive : chain.skipValidating = false) (hreg : reg.keepsChain = true) :
    (lookupFn methodName reg.customValidators = some fn →
        chainFields.contains methodName = false →
        ValidatorChain.invoke reg methodName args (chain, ctx)
          = some (afterCall (fn chain.value args (some ctx)) chain ctx))
      ∧ (∀ s : String, toString' chain.value = some s →
          lookupFn methodName reg.customValidators = none → isSelected methodName = true →
          reg.validator.fn methodName = some fn →
          ValidatorChain.invoke reg methodName args (chain, ctx)
            = some (afterCall (fn (.str s) args none) chain ctx))
      ∧ isValidOf false fn args chain ctx = fn chain.value args (some ctx)
      ∧ (∀ s : String, toString' chain.value = some s →
          isValidOf true fn args chain ctx = fn (.str s) args none)
      ∧ toString' .null = some "" ∧ toString' .undefined = some ""
      ∧ toString' (.obj [("toString", .str "x")]) = none
      ∧ toString' (.obj [("toString", .num 0)]) = none
      ∧ toString' (.num 1000000000000000000000) = some "1e+21" := by
  refine ⟨fun h hf => ?_, fun s hs h1 h2 h3 => ?_, rfl, fun s hs => ?_, rfl, rfl, rfl, rfl, ?_⟩
  · simp only [ValidatorChain.invoke, Registry.resolve, h, hreg, hf, Bool.not_true, Bool.or_self,
      Bool.false_eq_true, if_false]
    rw [dynamicValidator_active false fn args chain ctx hactive]
    rfl
  · simp only [ValidatorChain.invoke, Registry.resolve, h1, h2, h3, if_true, hreg,
      chainFields_not_selected methodName h2, Bool.not_true, Bool.or_self, Bool.false_eq_true,
      if_false]
    rw [dynamicValidator_active true fn args chain ctx hactive]
    simp only [isValidOf, hs, Option.getD_some, if_true]
  · simp only [isValidOf, hs, Option.getD_some, if_true]
  · decide

/-- Witness of C15: on the chain whose value is the number 17, the custom
predicate that wants the number and the context passes, and the built-in
`isInt` is given the string `'17'`. -/
theorem predicate_arguments_witness :
    numberChain.skipValidating = false
      ∧ ({ sampleRegistry with customValidators := [("seventeen", rawSeventeen)] }
          : Registry).keepsChain = true
      ∧ lookupFn "seventeen" [("seventeen", rawSeventeen)] = some rawSeventeen
      ∧ ValidatorChain.invoke
          { sampleRegistry with customValidators := [("seventeen", rawSeventeen)] }
          "seventeen" [] (numberChain, numberCtx)
        = some ({ numberChain with lastError := none }, numberCtx)
      ∧ toString' numberChain.value = some "17"
      ∧ ValidatorChain.invoke sampleRegistry "isInt" [] (numberChain, numberCtx)
        = some (afterCall (validatorIsInt (.str "17") [] none) numberChain numberCtx)
      ∧ isValidOf true validatorIsInt [] numberChain numberCtx
        = validatorIsInt (.str "17") [] none :=
  ⟨rfl, rfl, rfl,
    ((predicate_arguments { sampleRegistry with customValidators := [("seventeen", rawSeventeen)] }
      "seventeen" rawSeventeen [] numberChain numberCtx rfl rfl).1 rfl rfl).trans rfl,
    rfl,
    (predicate_arguments sampleRegistry "isInt" validatorIsInt [] numberChain numberCtx
      rfl rfl).2.1 "17" rfl rfl rfl rfl,
    (predicate_arguments sampleRegistry "isInt" validatorIsInt [] numberChain numberCtx
      rfl rfl).2.2.2.1 "17" rfl⟩

/-- C16: for a field name that is in none of the four buckets (its path-params
value is falsy and it is no key of the query, the body or the headers, among
the accesses of request data that the model determines), the schema
`{name: {notEmpty: {}}}` run with default location `any` on a request without
errors builds one chain, whose value is `undefined`, and records exactly one
error: the record that the formatter makes of the field name, the message
`'Invalid param'` and the value `undefined`, since the library finds the empty
string shorter than 1; the custom validators are taken to leave the chain,
`notEmpty` and `isLength` alone.  A name that every object inherits is not absent from
the path params: `constructor` is located there on the sample request, its
value is the function `Object` and `notEmpty` records nothing. -/
theorem missing_required_field_fails (reg : Registry) (options : Options) (ctx : Ctx)
    (name : String) (hempty : ctx._validationErrors = [])
    (_hdet : ctx.determines name = true)
    (hp : (Lodash.get ctx.params (.name name)).truthy = false)
    (hq : Lodash.has ctx.query (.name name) = false)
    (hb : Lodash.has ctx.body (.name name) = false)
    (hh : Lodash.has ctx.header (.name name) = false)
    (hreg : reg.keepsChain = true)
    (hcustom₁ : lookupFn "notEmpty" reg.customValidators = none)
    (hcustom₂ : lookupFn "isLength" reg.customValidators = none)
    (hlib : reg.validator.isLength (.str "") [.obj [("min", .num 1)]] none = false) :
    validateSchema reg [(name, [("notEmpty", .obj [])])] ctx .any options
        = some
            { ctx with
              _validationErrors :=
                [options.errorFormatter (.str name) (.str "Invalid param") .undefined] }
      ∧ (validateSchemaRun reg [(name, [("notEmpty", .obj [])])] ctx .any options).map
          (fun r => r.chains.map ValidatorChain.value) = some [.undefined]
      ∧ defaultErrorFormatter (.str name) (.str "Invalid param") .undefined
        = .obj [("param", .str name), ("msg", .str "Invalid param"), ("value", .undefined)]
      ∧ locate ctx (.name name) = none
      ∧ (validateSchemaRun sampleRegistry [("constructor", [("notEmpty", .obj [])])] sampleCtx
            .any {}).map (fun r => (r.chains.map ValidatorChain.value, r.ctx._validationErrors))
          = some ([.native "Object"], []) := by
  have hloc : locate ctx (.name name) = none := by
    simp [locate, hp, hq, hb, hh]
  have hres : Registry.resolve reg "notEmpty" = some .notEmpty := by
    have : isSelected "notEmpty" = false := by decide
    have hf : "notEmpty" ∉ chainFields := by decide
    simp [Registry.resolve, hcustom₁, this, hreg, hf]
  have hrun : validateSchemaRun reg [(name, [("notEmpty", .obj [])])] ctx .any options
      = some
          { currentLoc := none
            ctx := { ctx with
              _validationErrors :=
                [options.errorFormatter (.str name) (.str "Invalid param") .undefined] }
            chains :=
              [{ errorFormatter := options.errorFormatter
                 param := .name name
                 value := .undefined
                 validationErrors :=
                   [options.errorFormatter (.str name) (.str "Invalid param") .undefined]
                 failMsg := .str "Invalid param"
                 skipValidationOnFirstError := options.skipValidationOnFirstError
                 lastError := some { param := .name name, value := .undefined, isAsync := false }
                 skipValidating := options.skipValidationOnFirstError }] } := by
    have h1 : ¬ "notEmpty" = "errorMessage" := by decide
    have h2 : ¬ "notEmpty" = "in" := by decide
    simp [validateSchemaRun, fieldStep, lookupKey, hloc, constraintStep, h1, h2, member, getProp,
      spreadArgs, truthy, orElse, ValidatorChain.invoke, hres, callIsLength, hcustom₂,
      dynamicValidator, ValidatorChain.new, isValidOf, toString', hlib, errorOf,
      ValidatorChain.formatErrors, formatParamOutput, hempty]
  refine ⟨?_, ?_, rfl, hloc, rfl⟩
  · simp [validateSchema, hrun]
  · simp [hrun]

/-- Witness of C16: the field `zip` is in no bucket of the sample request. -/
theorem missing_required_field_fails_witness :
    sampleCtx._validationErrors = []
      ∧ sampleCtx.determines "zip" = true
      ∧ (Lodash.get sampleCtx.params (.name "zip")).truthy = false
      ∧ Lodash.has sampleCtx.query (.name "zip") = false
      ∧ Lodash.has sampleCtx.body (.name "zip") = false
      ∧ Lodash.has sampleCtx.header (.name "zip") = false
      ∧ sampleRegistry.keepsChain = true
      ∧ lookupFn "notEmpty" sampleRegistry.customValidators = none
      ∧ lookupFn "isLength" sampleRegistry.customValidators = none
      ∧ sampleRegistry.validator.isLength (.str "") [.obj [("min", .num 1)]] none = false
      ∧ validateSchema sampleRegistry [("zip", [("notEmpty", .obj [])])] sampleCtx .any {}
        = some
            { sampleCtx with
              _validationErrors :=
                [.obj [("param", .str "zip"), ("msg", .str "Invalid param"),
                  ("value", .undefined)]] } :=
  ⟨rfl, rfl, rfl, rfl, rfl, rfl, rfl, rfl, rfl, rfl,
    (missing_required_field_fails sampleRegistry {} sampleCtx "zip" rfl rfl rfl rfl rfl rfl rfl
      rfl rfl rfl).1⟩

/-- C17: on an active chain with the default error formatter, the record that a
failing predicate appends to both lists is `{param, msg, value}` with the
formatted field reference, the failure message of the chain or
`'Invalid value'` when it is falsy, and the raw value of the chain, whatever
string the predicate was given. -/
theorem default_error_record (isBuiltin : Bool) (fn : Predicate) (rest : List JsVal)
    (chain : ValidatorChain) (ctx : Ctx) (hactive : chain.skipValidating = false)
    (hfmt : chain.errorFormatter = defaultErrorFormatter)
    (hfail : isValidOf isBuiltin fn rest chain ctx = false) :
    (dynamicValidator isBuiltin fn rest (chain, ctx)).1.validationErrors
        = chain.validationErrors
          ++ [.obj [("param", formatParamOutput chain.param),
                ("msg", if chain.failMsg.truthy = true then chain.failMsg
                  else .str "Invalid value"),
                ("value", chain.value)]]
      ∧ (dynamicValidator isBuiltin fn rest (chain, ctx)).2._validationErrors
        = ctx._validationErrors
          ++ [.obj [("param", formatParamOutput chain.param),
                ("msg", if chain.failMsg.truthy = true then chain.failMsg
                  else .str "Invalid value"),
                ("value", chain.value)]] := by
  rw [dynamicValidator_active isBuiltin fn rest chain ctx hactive, hfail]
  simp [afterCall, errorOf, ValidatorChain.formatErrors, hfmt, defaultErrorFormatter]

/-- Witness of C17: `isLength({min: 9})` fails on the chain whose value is the
number 17; the predicate is given the string `'17'` and the record holds the
number. -/
theorem default_error_record_witness :
    numberChain.skipValidating = false
      ∧ numberChain.errorFormatter = defaultErrorFormatter
      ∧ isValidOf true validatorIsLength [.obj [("min", .num 9)]] numberChain numberCtx = false
      ∧ (dynamicValidator true validatorIsLength [.obj [("min", .num 9)]]
            (numberChain, numberCtx)).2._validationErrors
          = [.obj [("param", .str "n"), ("msg", .str "Invalid value"), ("value", .num 17)]] :=
  ⟨rfl, rfl, rfl,
    (default_error_record true validatorIsLength [.obj [("min", .num 9)]] numberChain numberCtx
      rfl rfl rfl).2.trans rfl⟩

/-- C18: `skipValidating` is never cleared.  A method call that returns leaves
a skipped chain skipped, and so do the update of the failure message and a step
of the schema executor; an active chain becomes skipped exactly by `optional`
on a value that is `undefined`, or falsy under a truthy `checkFalsy`, or by a
predicate method whose predicate fails while `skipValidationOnFirstError` is
set. -/
theorem skipped_is_absorbing (reg : Registry) (methodName : String) (args : List JsVal)
    (c c' : ValidatorChain) (ctx ctx' : Ctx)
    (hcall : ValidatorChain.invoke reg methodName args (c, ctx) = some (c', ctx')) :
    (c.skipValidating = true → c'.skipValidating = true)
      ∧ (c.skipValidating = false →
          (c'.skipValidating = true
            ↔ (reg.resolve methodName = some .optional
                ∧ ∃ cf, checkFalsyOf (args.headD .undefined) = some cf
                  ∧ (if cf.truthy = true then c.value.truthy = false
                      else c.value.isUndefined = true))
              ∨ (reg.isPredicateMethod methodName = true
                ∧ reg.isValidCall (methodName, args) c ctx = false
                ∧ c.skipValidationOnFirstError = true)))
      ∧ (∀ m : JsVal, ({ c with failMsg := m } : ValidatorChain).skipValidating
          = c.skipValidating)
      ∧ (∀ (loc : Loc) (paramErrorMessage : JsVal) (l : Option Loc) (entry : String × JsVal)
          (r : ValidatorChain × Ctx × Option Loc),
          constraintStep reg loc paramErrorMessage (c, ctx, l) entry = some r →
          c.skipValidating = true → r.1.skipValidating = true) := by
  have hflag := invoke_skip_flag reg methodName args c c' ctx ctx' hcall
  refine ⟨fun hs => ?_, fun hs => ?_, fun _ => rfl,
    fun loc pem l entry r h hs => constraintStep_skip reg loc pem c ctx l entry r h hs⟩
  · rcases hflag with ⟨_, h2⟩ | ⟨_, _, cf, _, h2⟩ <;> simp [h2, hs]
  · rcases hflag with ⟨hp, h2⟩ | ⟨hp, hr, cf, hcf, h2⟩
    · have hno : reg.resolve methodName ≠ some .optional := by
        intro hr
        simp [Registry.isPredicateMethod, hr] at hp
      rw [h2, hs]
      constructor
      · intro h
        simp only [Bool.false_or, Bool.and_eq_true, Bool.not_eq_true'] at h
        exact Or.inr ⟨hp, h.1, h.2⟩
      · rintro (⟨hr, _⟩ | ⟨_, h3, h4⟩)
        · exact absurd hr hno
        · simp [h3, h4]
    · rw [h2, hs]
      constructor
      · intro h
        refine Or.inl ⟨hr, cf, hcf, ?_⟩
        by_cases ht : cf.truthy = true
        · simpa [ht] using h
        · simpa [ht] using h
      · rintro (⟨_, cf', hcf', h3⟩ | ⟨hp', _, _⟩)
        · rw [hcf] at hcf'
          cases hcf'
          by_cases ht : cf.truthy = true
          · simpa [ht] using h3
          · simpa [ht] using h3
        · rw [hp] at hp'
          exact absurd hp' (by simp)

/-- Witness of C18: `optional()` on the chain of the missing field `zip` skips
it, and `isInt()` on the skipped chain leaves it skipped. -/
theorem skipped_is_absorbing_witness :
    ValidatorChain.invoke sampleRegistry "isInt" []
        ({ ValidatorChain.new (.name "zip") .undefined sampleCtx none {} with
            skipValidating := true }, sampleCtx)
      = some
          ({ ValidatorChain.new (.name "zip") .undefined sampleCtx none {} with
              skipValidating := true }, sampleCtx)
      ∧ (({ ValidatorChain.new (.name "zip") .undefined sampleCtx none {} with
              skipValidating := true } : ValidatorChain).skipValidating = true →
          ({ ValidatorChain.new (.name "zip") .undefined sampleCtx none {} with
              skipValidating := true } : ValidatorChain).skipValidating = true)
      ∧ ValidatorChain.invoke sampleRegistry "optional" []
          (ValidatorChain.new (.name "zip") .undefined sampleCtx none {}, sampleCtx)
        = some
            ({ ValidatorChain.new (.name "zip") .undefined sampleCtx none {} with
                skipValidating := true }, sampleCtx) :=
  ⟨rfl,
    (skipped_is_absorbing sampleRegistry "isInt" []
      { ValidatorChain.new (.name "zip") .undefined sampleCtx none {} with skipValidating := true }
      { ValidatorChain.new (.name "zip") .undefined sampleCtx none {} with skipValidating := true }
      sampleCtx sampleCtx rfl).1,
    rfl⟩

/-- C19: within one request, after any sequence of chain constructions, method
calls on the chains built and schema executions that returns, the error list
of every chain built is a sublist of the shared error list, and the length of
the shared list is the sum of the lengths of the lists of the chains. -/
theorem error_lists_consistent (reg : Registry) (options : Options) (ctx : Ctx)
    (ops : List SessionOp) (s : Session)
    (hrun : Session.run reg options ops (Session.start ctx) = some s) :
    (∀ c ∈ s.chains, c.validationErrors.Sublist s.ctx._validationErrors)
      ∧ s.ctx._validationErrors.length
        = (s.chains.map fun c => c.validationErrors.length).sum :=
  run_consistent reg options ops (Session.start ctx) s hrun
    ⟨fun _ h => absurd h (List.not_mem_nil _), rfl⟩

/-- Witness of C19: the run of the sample handler ends with two chains and
three errors, two of them of the first chain. -/
theorem error_lists_consistent_witness :
    (Session.run sampleRegistry {} sampleOps (Session.start sampleCtx)).map
        (fun s => (s.chains.map fun c => c.validationErrors.length,
          s.ctx._validationErrors.length))
      = some ([2, 1], 3)
      ∧ ∀ s, Session.run sampleRegistry {} sampleOps (Session.start sampleCtx) = some s →
          (∀ c ∈ s.chains, c.validationErrors.Sublist s.ctx._validationErrors)
            ∧ s.ctx._validationErrors.length
              = (s.chains.map fun c => c.validationErrors.length).sum :=
  ⟨rfl, fun s h => error_lists_consistent sampleRegistry {} sampleCtx sampleOps s h⟩

/-- C20: a key held by both the query and the path params, and by neither the
body nor the headers left after the denylist, has in the merged parameters the
value of the path params; in general the value is taken from the last of
query, params, body, headers that holds the key. -/
theorem merged_params_override_query (ctx : Ctx) (k : String)
    (_hq : k ∈ (ownEntries ctx.query).map Prod.fst)
    (hp : k ∈ (ownEntries ctx.params).map Prod.fst)
    (hb : k ∉ (ownEntries ctx.body).map Prod.fst)
    (hh : k ∉ (ownEntries (_delAttrInObj ctx.header headerOwnParams)).map Prod.fst) :
    lookupKey k (_getParams ctx) = lastValue k (ownEntries ctx.params)
      ∧ (lookupKey k (_getParams ctx)).isSome = true
      ∧ (∀ props, ctx.params = .obj props → (props.map Prod.fst).Nodup →
          lookupKey k (_getParams ctx) = some (getProp ctx.params k))
      ∧ (∀ k', lookupKey k' (_getParams ctx)
          = (lastValue k' (ownEntries (_delAttrInObj ctx.header headerOwnParams))).or
              ((lastValue k' (ownEntries ctx.body)).or
                ((lastValue k' (ownEntries ctx.params)).or
                  (lastValue k' (ownEntries ctx.query))))) := by
  have hb' : lastValue k (ownEntries ctx.body) = none := by
    cases h : lastValue k (ownEntries ctx.body) with
    | none => rfl
    | some v => exact absurd ((lastValue_isSome_iff _ _).1 (by simp [h])) hb
  have hh' : lastValue k (ownEntries (_delAttrInObj ctx.header headerOwnParams)) = none := by
    cases h : lastValue k (ownEntries (_delAttrInObj ctx.header headerOwnParams)) with
    | none => rfl
    | some v => exact absurd ((lastValue_isSome_iff _ _).1 (by simp [h])) hh
  obtain ⟨v, hv⟩ := Option.isSome_iff_exists.1 ((lastValue_isSome_iff _ _).2 hp)
  have hmain : lookupKey k (_getParams ctx) = lastValue k (ownEntries ctx.params) := by
    rw [getParams_lookup, hb', hh', hv]; rfl
  refine ⟨hmain, by rw [hmain, hv]; rfl, fun props hprops hn => ?_, getParams_lookup ctx⟩
  rw [hmain, hprops]
  simp only [ownEntries, getProp]
  rw [lastValue_eq_lookupKey k props hn]
  rw [hprops] at hv
  simp only [ownEntries] at hv
  rw [lastValue_eq_lookupKey k props hn] at hv
  simp [hv]

/-- Witness of C20: `page` is in the query and the path params only; the merged
value is the one of the path params. -/
theorem merged_params_override_query_witness :
    "page" ∈ (ownEntries overlapCtx.query).map Prod.fst
      ∧ "page" ∈ (ownEntries overlapCtx.params).map Prod.fst
      ∧ "page" ∉ (ownEntries overlapCtx.body).map Prod.fst
      ∧ "page" ∉ (ownEntries (_delAttrInObj overlapCtx.header headerOwnParams)).map Prod.fst
      ∧ lookupKey "page" (_getParams overlapCtx) = some (.str "2") :=
  ⟨by decide, by decide, by decide, by decide,
    (merged_params_override_query overlapCtx "page" (by decide) (by decide) (by decide)
      (by decide)).1.trans rfl⟩
